import Mathlib

/-!
Verification of the Amplitude Audio SDK asset build pipeline
(`scripts/common.py`), shallowly embedded in Lean.

Paths and other Python strings are modelled as `List Char`.  The filesystem
is an explicit state (`FS`): an association list from file path to
modification time, plus a list of directories (directory metadata beyond
existence is not modelled; nothing in the verified code reads it).  The
external `flatc` compiler is an oracle (`Compiler`) mapping a command line
and a filesystem to an outcome; exceptions are modelled as an error field
threaded through the fold that mirrors the Python iteration.
-/

namespace AmplitudeBuild

/-- Python strings are modelled as lists of characters. -/
abbrev Str := List Char

/-! ## Python string primitives -/

/-- Fuel-indexed scanner implementing Python `str.replace` for a non-empty
pattern: scan left to right, replace each non-overlapping occurrence.
The fuel is always instantiated with the length of the scanned string,
which is enough to never hit the fuel-exhausted branch. -/
def replaceFuel (pat rep : Str) : Nat → Str → Str
  | _, [] => []
  | 0, s => s
  | fuel+1, c :: cs =>
    if pat.isPrefixOf (c :: cs) then rep ++ replaceFuel pat rep fuel (cs.drop (pat.length - 1))
    else c :: replaceFuel pat rep fuel cs

/-- Python `s.replace(pat, rep)`: every occurrence, scanning left to right,
non-overlapping.  An empty pattern inserts `rep` before and after every
character, exactly as in Python. -/
def pyReplace (s pat rep : Str) : Str :=
  if pat.isEmpty then rep ++ s.foldr (fun c acc => c :: (rep ++ acc)) []
  else replaceFuel pat rep s.length s

/-- Python `pat in s` (substring containment). -/
def strContains (s pat : Str) : Bool := decide (pat <:+: s)

/-- Python `s.endswith(pat)`. -/
def strEndsWith (s pat : Str) : Bool := pat.isSuffixOf s

/-! ## Directory-name constants of `scripts/common.py` -/

def SOUNDS_DIR_NAME : Str := "sounds".data

def COLLECTIONS_DIR_NAME : Str := "collections".data

def SOUNDBANKS_DIR_NAME : Str := "soundbanks".data

def EVENTS_DIR_NAME : Str := "events".data

def PIPELINES_DIR_NAME : Str := "pipelines".data

def ATTENUATORS_DIR_NAME : Str := "attenuators".data

def SWITCHES_DIR_NAME : Str := "switches".data

def SWITCH_CONTAINERS_DIR_NAME : Str := "switch_containers".data

def RTPC_DIR_NAME : Str := "rtpc".data

def EFFECTS_DIR_NAME : Str := "effects".data

def ENVIRONMENTS_DIR_NAME : Str := "environments".data

/-! ## The path mapper (`processed_json_path`) -/

/-- The replacement extension chosen by `processed_json_path`, in the exact
order of the conditional expression at `scripts/common.py:206-220`. -/
def processed_ext (path : Str) : Str :=
  if strEndsWith path "config.json".data then ".amconfig".data
  else if strEndsWith path "buses.json".data then ".ambus".data
  else if strContains path SOUNDBANKS_DIR_NAME then ".ambank".data
  else if strContains path COLLECTIONS_DIR_NAME then ".amcollection".data
  else if strContains path EVENTS_DIR_NAME then ".amevent".data
  else if strContains path PIPELINES_DIR_NAME then ".ampipeline".data
  else if strContains path ATTENUATORS_DIR_NAME then ".amattenuation".data
  else if strContains path SWITCHES_DIR_NAME then ".amswitch".data
  else if strContains path SWITCH_CONTAINERS_DIR_NAME then ".amswitchcontainer".data
  else if strContains path RTPC_DIR_NAME then ".amrtpc".data
  else if strContains path SOUNDS_DIR_NAME then ".amsound".data
  else if strContains path ENVIRONMENTS_DIR_NAME then ".amenv".data
  else ".ambin".data

/-- `processed_json_path(path, input_path, output_path)`:
`path.replace(".json", ext).replace(input_path, output_path)`. -/
def processed_json_path (path input_path output_path : Str) : Str :=
  pyReplace (pyReplace path ".json".data (processed_ext path)) input_path output_path

example : processed_json_path "p/sounds/foo.json".data "p".data "out".data
    = "out/sounds/foo.amsound".data := by decide

example : processed_json_path "p/sounds/events/a.json".data "p".data "out".data
    = "out/sounds/events/a.amevent".data := by decide

example : processed_json_path "p/dir.json.d/a.config.json".data "p".data "out".data
    = "out/dir.amconfig.d/a.config.amconfig".data := by decide

/-! ## Path helpers (`os.path`) -/

/-- `os.path.join(a, b)` on POSIX. -/
def pjoin (a b : Str) : Str :=
  if b.head? = some '/' then b
  else if a = [] then b
  else if a.getLast? = some '/' then a ++ b
  else a ++ "/".data ++ b

/-- Strip trailing slashes (`str.rstrip('/')` on a path head). -/
def rstripSlash (p : Str) : Str := (p.reverse.dropWhile (fun c => c = '/')).reverse

/-- `os.path.dirname` on POSIX: everything before the last slash, with
trailing slashes stripped unless the result is all slashes. -/
def dirname (p : Str) : Str :=
  let head := (p.reverse.dropWhile (fun c => ¬ c = '/')).reverse
  if head = [] then []
  else if head.all (fun c => c = '/') then head
  else rstripSlash head

example : dirname "a/b/c.txt".data = "a/b".data := by decide

example : dirname "c.txt".data = [] := by decide

example : dirname "/a".data = "/".data := by decide

/-! ## Filesystem state -/

/-- Association-list lookup of a modification time. -/
def lookupM : List (Str × Nat) → Str → Option Nat
  | [], _ => none
  | e :: es, p => if e.1 = p then some e.2 else lookupM es p

/-- The filesystem: regular files with their modification times (later
entries shadowed by earlier ones), and existing directories.  Directory
metadata other than existence is not modelled. -/
structure FS where
  files : List (Str × Nat)
  dirs : List Str

/-- `os.path.getmtime`: `some` for a regular file, `none` models the
`OSError` raised on a missing path. -/
def FS.mtime (fs : FS) (p : Str) : Option Nat := lookupM fs.files p

/-- `os.path.isfile`. -/
def FS.isfile (fs : FS) (p : Str) : Bool := (fs.mtime p).isSome

/-- `os.path.exists` (file or directory). -/
def FS.existsPath (fs : FS) (p : Str) : Bool := fs.isfile p || fs.dirs.contains p

/-- Writing a file: the new entry shadows any previous one. -/
def FS.setFile (fs : FS) (p : Str) (t : Nat) : FS := ⟨(p, t) :: fs.files, fs.dirs⟩

/-- `os.remove`: delete every entry for this path. -/
def FS.removeFile (fs : FS) (p : Str) : FS :=
  ⟨fs.files.filter (fun e => ¬ e.1 = p), fs.dirs⟩

/-- `os.makedirs` (intermediate directories are not tracked; only the
existence of the created directory matters to the verified code). -/
def FS.makedirs (fs : FS) (p : Str) : FS := ⟨fs.files, p :: fs.dirs⟩

/-! ## `needs_rebuild` -/

/-- `needs_rebuild(source, target)` = `not os.path.isfile(target) or
(os.path.getmtime(source) > os.path.getmtime(target))`, with Python
short-circuiting; `none` models the `OSError` escaping from `getmtime`. -/
def needs_rebuild (fs : FS) (source target : Str) : Option Bool :=
  if fs.isfile target then
    match fs.mtime source, fs.mtime target with
    | some ms, some mt => some (decide (mt < ms))
    | _, _ => none
  else some true

/-! ## `find_in_paths` -/

/-- `find_in_paths(name, paths)`: first `os.path.join(path, name)` that is a
regular file, else the bare `name`. -/
def find_in_paths (fs : FS) (name : Str) : List Str → Str
  | [] => name
  | p :: rest =>
    if fs.isfile (pjoin p name) then pjoin p name else find_in_paths fs name rest

/-! ## Glob enumeration (`glob.glob`) -/

/-- `dropPre? pre s = some r` iff `s = pre ++ r`. -/
def dropPre? : Str → Str → Option Str
  | [], s => some s
  | _ :: _, [] => none
  | c :: cs, d :: ds => if c = d then dropPre? cs ds else none

/-- Split at slashes; always returns a non-empty list of segments. -/
def splitSeg : Str → List Str
  | [] => [[]]
  | c :: rest =>
    if c = '/' then [] :: splitSeg rest
    else
      match splitSeg rest with
      | s :: ss => (c :: s) :: ss
      | [] => [[c]]

example : splitSeg "ab/c//d".data = ["ab".data, "c".data, [], "d".data] := by decide

/-- fnmatch of a basename against `*<suf>`: glob wildcards do not match a
leading dot (hidden files). -/
def nameMatchesStar (suf name : Str) : Bool :=
  (¬ name.head? = some '.') && suf.isSuffixOf name

/-- A path component matched by `**`: non-empty and not hidden. -/
def innerSegOk (s : Str) : Bool := (¬ s = []) && (¬ s.head? = some '.')

/-- The relative part matched by `**/*.json` (recursive glob): every
directory component non-hidden and non-empty, basename matching `*.json`. -/
def recMatch (rest : Str) : Bool :=
  let ss := splitSeg rest
  ss.dropLast.all innerSegOk &&
    match ss.getLast? with
    | some nm => nameMatchesStar ".json".data nm
    | none => false

/-- The two glob shapes used by `get_conversion_data`: `<root>/*<suf>` and
`<root>/<dir>/**/*.json` (recursive). -/
inductive SrcPattern where
  | star (suf : Str)
  | subdir (dir : Str)
deriving DecidableEq

/-- Whether the file path `f` is matched by the glob pattern rooted at the
project directory (the project path is taken slash-normalized: non-empty,
no trailing slash, so that `os.path.join` is plain concatenation). -/
def globMatches (proj : Str) (pat : SrcPattern) (f : Str) : Bool :=
  match pat with
  | .star suf =>
    match dropPre? (proj ++ "/".data) f with
    | some name => (¬ name.any (fun c => c = '/')) && nameMatchesStar suf name
    | none => false
  | .subdir dir =>
    match dropPre? (proj ++ "/".data ++ dir ++ "/".data) f with
    | some rest => recMatch rest
    | none => false

/-- `glob.glob` over the modelled filesystem: the matching file paths, in
filesystem enumeration order. -/
def globFiles (fs : FS) (proj : Str) (pat : SrcPattern) : List Str :=
  (fs.files.map Prod.fst).filter (globMatches proj pat)

/-! ## `get_conversion_data` -/

/-- `FlatbuffersConversionData`: a schema path plus the input files. -/
structure FlatbuffersConversionData where
  schema : Str
  input_files : List Str
deriving DecidableEq

/-- The twelve conversion entries of `get_conversion_data`
(`scripts/common.py:380-429`), as (schema file name, glob pattern), in
source order.  Note that there is no `environments` entry. -/
def conversionRegistry : List (Str × SrcPattern) :=
  [ ("engine_config_definition.bfbs".data, .star ".config.json".data),
    ("buses_definition.bfbs".data, .star ".buses.json".data),
    ("sound_bank_definition.bfbs".data, .subdir SOUNDBANKS_DIR_NAME),
    ("collection_definition.bfbs".data, .subdir COLLECTIONS_DIR_NAME),
    ("sound_definition.bfbs".data, .subdir SOUNDS_DIR_NAME),
    ("event_definition.bfbs".data, .subdir EVENTS_DIR_NAME),
    ("pipeline_definition.bfbs".data, .subdir PIPELINES_DIR_NAME),
    ("attenuation_definition.bfbs".data, .subdir ATTENUATORS_DIR_NAME),
    ("switch_definition.bfbs".data, .subdir SWITCHES_DIR_NAME),
    ("switch_container_definition.bfbs".data, .subdir SWITCH_CONTAINERS_DIR_NAME),
    ("rtpc_definition.bfbs".data, .subdir RTPC_DIR_NAME),
    ("effect_definition.bfbs".data, .subdir EFFECTS_DIR_NAME) ]

/-- `get_conversion_data(project_path, schema_paths)`. -/
def get_conversion_data (fs : FS) (project_path : Str) (schema_paths : List Str) :
    List FlatbuffersConversionData :=
  conversionRegistry.map (fun e =>
    ⟨find_in_paths fs e.1 schema_paths, globFiles fs project_path e.2⟩)

/-! ## The orchestrator -/

/-- `BuildError(argv, error_code, message)`. -/
structure BuildError where
  argv : List Str
  error_code : Nat
  message : Str
deriving DecidableEq

/-- An uncaught Python exception escaping the orchestrator: either a
`BuildError` from `run_subprocess` or an `OSError` from `getmtime`. -/
inductive RunError where
  | build (e : BuildError)
  | osError
deriving DecidableEq

/-- Outcome of launching the external compiler once: `Popen` raising
`OSError`, or the process running to completion with an exit code and the
filesystem it leaves behind. -/
inductive CompilerStep where
  | launchFail (msg : Str)
  | ran (code : Nat) (fsAfter : FS)

/-- The external compiler as an oracle from command line and filesystem to
an outcome. -/
structure Compiler where
  run : List Str → FS → CompilerStep

/-- Orchestrator state: the filesystem, the compiler command lines attempted
so far (in order), and the exception currently propagating, if any. -/
structure BuildSt where
  fs : FS
  calls : List (List Str)
  err : Option RunError

/-- `run_subprocess(argv)`: raises `BuildError(argv, 1, str(e))` when the
executable cannot be launched, `BuildError(argv, returncode)` when the
process exits non-zero. -/
def run_subprocess (C : Compiler) (st : BuildSt) (argv : List Str) : BuildSt :=
  match C.run argv st.fs with
  | .launchFail msg => ⟨st.fs, st.calls ++ [argv], some (.build ⟨argv, 1, msg⟩)⟩
  | .ran code fs1 =>
    if code = 0 then ⟨fs1, st.calls ++ [argv], none⟩
    else ⟨fs1, st.calls ++ [argv], some (.build ⟨argv, code, []⟩)⟩

/-- The `flatc` command line built by `convert_json_to_flatbuffers_binary`. -/
def mkCmd (flatc out_dir schema_path schema json : Str) : List Str :=
  [flatc, "-o".data, out_dir, "-I".data, schema_path, "-b".data, schema, json]

/-- `convert_json_to_flatbuffers_binary(flatc, json, schema, out_dir, schema_path)`. -/
def convert_json_to_flatbuffers_binary (C : Compiler) (st : BuildSt)
    (flatc json schema out_dir schema_path : Str) : BuildSt :=
  run_subprocess C st (mkCmd flatc out_dir schema_path schema json)

/-- `CommandOptions`: the four paths the orchestrator uses. -/
structure CommandOptions where
  project_path : Str
  build_path : Str
  flatc_path : Str
  schema_path : Str

/-- The body of the inner loop of `generate_flatbuffers_binaries` for one
source file: compute the target, create its directory if absent, and invoke
the compiler when the data file or the schema is newer than the target.
A propagating exception (`st.err`) skips everything, modelling the uncaught
Python exception aborting the remaining iterations. -/
def processUnit (C : Compiler) (opts : CommandOptions) (schema : Str)
    (st : BuildSt) (json : Str) : BuildSt :=
  if st.err.isSome then st
  else
    let target := processed_json_path json opts.project_path opts.build_path
    let tdir := dirname target
    let fs1 := if (st.fs.existsPath tdir : Bool) then st.fs else st.fs.makedirs tdir
    let st1 : BuildSt := ⟨fs1, st.calls, st.err⟩
    match needs_rebuild fs1 json target with
    | none => ⟨fs1, st.calls, some .osError⟩
    | some b1 =>
      if b1 then
        convert_json_to_flatbuffers_binary C st1 opts.flatc_path json schema tdir opts.schema_path
      else
        match needs_rebuild fs1 schema target with
        | none => ⟨fs1, st.calls, some .osError⟩
        | some b2 =>
          if b2 then
            convert_json_to_flatbuffers_binary C st1 opts.flatc_path json schema tdir
              opts.schema_path
          else st1

/-- `generate_flatbuffers_binaries(options)`: conversion data is computed
once up front, then every category and every file is visited in order. -/
def generate_flatbuffers_binaries (C : Compiler) (opts : CommandOptions) (fs : FS) : BuildSt :=
  (get_conversion_data fs opts.project_path [opts.schema_path]).foldl
    (fun st e => e.input_files.foldl (processUnit C opts e.schema) st)
    ⟨fs, [], none⟩

/-! ## `clean_flatbuffers_binaries` -/

/-- One iteration of the clean loop: delete the computed target if it is a
regular file. -/
def cleanUnit (proj build : Str) (fs : FS) (json : Str) : FS :=
  let path := processed_json_path json proj build
  if fs.isfile path then fs.removeFile path else fs

/-- `clean_flatbuffers_binaries(options)`: same conversion data as the
build, no staleness check, delete each existing target. -/
def clean_flatbuffers_binaries (opts : CommandOptions) (fs : FS) : FS :=
  (get_conversion_data fs opts.project_path [opts.schema_path]).foldl
    (fun f e => e.input_files.foldl (cleanUnit opts.project_path opts.build_path) f)
    fs

/-! ## Derived definitions used by the verification -/

/-- No non-empty proper suffix of `pat` is also one of its prefixes, so two
occurrences of `pat` can never overlap. -/
def overlapFree (pat : Str) : Prop :=
  ∀ k, k < pat.length → 0 < k → pat.drop k ≠ pat.take (pat.length - k)

instance : DecidablePred overlapFree := fun pat =>
  inferInstanceAs (Decidable (∀ k, k < pat.length → 0 < k → pat.drop k ≠ pat.take (pat.length - k)))

/-- No occurrence of `pat` can intersect a final `suf` region of a string:
`pat` occurs nowhere inside `suf`, and no non-empty proper suffix of `pat`
is a prefix of `suf`. -/
def NoSufOverlap (pat suf : Str) : Prop :=
  (¬ pat <:+: suf) ∧ ∀ k, k < pat.length → 0 < k → pat.drop k ≠ suf.take (pat.length - k)

instance : ∀ pat suf, Decidable (NoSufOverlap pat suf) := fun pat suf =>
  inferInstanceAs (Decidable ((¬ pat <:+: suf) ∧
    ∀ k, k < pat.length → 0 < k → pat.drop k ≠ suf.take (pat.length - k)))

/-- All extensions `processed_json_path` can substitute, in rule order. -/
def extList : List Str :=
  [ ".amconfig".data, ".ambus".data, ".ambank".data, ".amcollection".data,
    ".amevent".data, ".ampipeline".data, ".amattenuation".data, ".amswitch".data,
    ".amswitchcontainer".data, ".amrtpc".data, ".amsound".data, ".amenv".data,
    ".ambin".data ]

/-- Side conditions on the project path under which the prefix rewrite of
`processed_json_path` cannot corrupt the substituted extension: non-empty,
and no occurrence of it can intersect a final extension region. -/
def ProjOk (proj : Str) : Prop := proj ≠ [] ∧ ∀ e ∈ extList, NoSufOverlap proj e

instance : DecidablePred ProjOk := fun proj =>
  inferInstanceAs (Decidable (proj ≠ [] ∧ ∀ e ∈ extList, NoSufOverlap proj e))

/-- An ordered list of (predicate, extension) rules evaluated first-match-wins
with the `.ambin` fallback: the shape in which the specification words the
path-naming policy. -/
def firstMatchExt : List ((Str → Bool) × Str) → Str → Str
  | [], _ => ".ambin".data
  | r :: rest, p => if r.1 p then r.2 else firstMatchExt rest p

/-- The naming rules actually evaluated by `processed_json_path`, in the
order of the source: the two filename-suffix rules, then the substring rules
with `sounds` placed after `rtpc` and before `environments`. -/
def amendedRuleChain : List ((Str → Bool) × Str) :=
  [ (fun p => strEndsWith p "config.json".data, ".amconfig".data),
    (fun p => strEndsWith p "buses.json".data, ".ambus".data),
    (fun p => strContains p SOUNDBANKS_DIR_NAME, ".ambank".data),
    (fun p => strContains p COLLECTIONS_DIR_NAME, ".amcollection".data),
    (fun p => strContains p EVENTS_DIR_NAME, ".amevent".data),
    (fun p => strContains p PIPELINES_DIR_NAME, ".ampipeline".data),
    (fun p => strContains p ATTENUATORS_DIR_NAME, ".amattenuation".data),
    (fun p => strContains p SWITCHES_DIR_NAME, ".amswitch".data),
    (fun p => strContains p SWITCH_CONTAINERS_DIR_NAME, ".amswitchcontainer".data),
    (fun p => strContains p RTPC_DIR_NAME, ".amrtpc".data),
    (fun p => strContains p SOUNDS_DIR_NAME, ".amsound".data),
    (fun p => strContains p ENVIRONMENTS_DIR_NAME, ".amenv".data) ]

/-- The target path the orchestrator computes for a source file. -/
def targetOf (opts : CommandOptions) (json : Str) : Str :=
  processed_json_path json opts.project_path opts.build_path

/-- The compiler command line the orchestrator issues for a source file. -/
def cmdOf (opts : CommandOptions) (schema json : Str) : List Str :=
  mkCmd opts.flatc_path (dirname (targetOf opts json)) opts.schema_path schema json

/-- The filesystem after the lazy directory creation step of one unit. -/
def fs1Of (opts : CommandOptions) (fs : FS) (json : Str) : FS :=
  if (fs.existsPath (dirname (targetOf opts json)) : Bool) then fs
  else fs.makedirs (dirname (targetOf opts json))

/-- Every target path the conversion data of a filesystem maps to, in
iteration order: the mapping `clean` shares with the build. -/
def allTargets (opts : CommandOptions) (fs : FS) : List Str :=
  ((get_conversion_data fs opts.project_path [opts.schema_path]).map
      FlatbuffersConversionData.input_files).flatten.map
    (fun j => processed_json_path j opts.project_path opts.build_path)

/-- The (schema, source file) units of one orchestrator run, flattened in
iteration order. -/
def unitsOf (fs : FS) (proj sp : Str) : List (Str × Str) :=
  ((get_conversion_data fs proj [sp]).map
    (fun e => e.input_files.map (fun j => (e.schema, j)))).flatten

/-- The largest modification time present in a filesystem. -/
def maxMtime (fs : FS) : Nat := fs.files.foldl (fun a e => max a e.2) 0

/-- A compiler obeying the interface contract: it always succeeds and writes
exactly the unit's target, with a timestamp newer than everything else. -/
def demoCompiler (proj build : Str) : Compiler :=
  ⟨fun argv fs => .ran 0 (fs.setFile (processed_json_path (argv.getLastD []) proj build)
    (maxMtime fs + 1))⟩

/-- The compiler contract assumed for idempotence: every invocation built by
the orchestrator succeeds and writes exactly the unit's target file, with a
modification time at least as new as everything currently on disk. -/
def Hrun (C : Compiler) (opts : CommandOptions) : Prop :=
  ∀ (json sch odir : Str) (g : FS), ∃ t,
    C.run (mkCmd opts.flatc_path odir opts.schema_path sch json) g
      = .ran 0 (g.setFile (processed_json_path json opts.project_path opts.build_path) t)
    ∧ ∀ q m, g.mtime q = some m → m ≤ t

/-- Facts holding of every enumerated (schema, source) unit: the source is
an existing `.json` file and the schema resolves to an existing `.bfbs`
file. -/
def GoodUnit (fs0 : FS) (u : Str × Str) : Prop :=
  (".json".data <:+ u.2) ∧ fs0.isfile u.2 = true
    ∧ fs0.isfile u.1 = true ∧ (".bfbs".data <:+ u.1)

/-- A path is one of the build targets of the initial filesystem. -/
def IsTarget (opts : CommandOptions) (fs0 : FS) (q : Str) : Prop :=
  ∃ u ∈ unitsOf fs0 opts.project_path opts.schema_path, q = targetOf opts u.2

/-- A unit whose target is on disk and at least as new as its source and
schema were initially. -/
def UpToDate (opts : CommandOptions) (fs0 : FS) (g : FS) (u : Str × Str) : Prop :=
  ∃ m, g.mtime (targetOf opts u.2) = some m
    ∧ (∀ mj, fs0.mtime u.2 = some mj → mj ≤ m)
    ∧ (∀ ms, fs0.mtime u.1 = some ms → ms ≤ m)

/-- The invariant of a build run started on `fs0`: no exception propagating,
non-target paths untouched, and the conversion data unchanged. -/
def BuildInv (opts : CommandOptions) (fs0 : FS) (st : BuildSt) : Prop :=
  st.err = none
  ∧ (∀ q, ¬ IsTarget opts fs0 q → st.fs.mtime q = fs0.mtime q)
  ∧ get_conversion_data st.fs opts.project_path [opts.schema_path]
      = get_conversion_data fs0 opts.project_path [opts.schema_path]

/-! ## Concrete fixtures used to instantiate theorems -/

/-- A project with one sound source and all twelve schemas installed. -/
def c6fs : FS :=
  ⟨("zz/sounds/a.json".data, 5)
    :: conversionRegistry.map (fun r => (pjoin "zs".data r.1, 1)), []⟩

/-- A small project: one sound source, one stale target, the sound schema. -/
def wfs : FS :=
  ⟨[ ("zz/sounds/a.json".data, 5), ("out/sounds/a.amsound".data, 3),
     ("zs/sound_definition.bfbs".data, 1) ], []⟩

def wopts : CommandOptions := ⟨"zz".data, "out".data, "zf".data, "zs".data⟩

/-- A compiler that always succeeds and changes nothing. -/
def wcompOk : Compiler := ⟨fun _ fs => .ran 0 fs⟩

/-- A compiler whose executable cannot be launched. -/
def wcompLaunchFail : Compiler := ⟨fun _ _ => .launchFail "m".data⟩

/-- A compiler that always exits with status 2. -/
def wcompExit2 : Compiler := ⟨fun _ fs => .ran 2 fs⟩

/-! ## Lemmas about `pyReplace` -/

theorem suffix_append_left {l₁ l₂ : Str} (l : Str) (h : l₁ <:+ l₂) : l₁ <:+ l ++ l₂ :=
  h.trans (List.suffix_append l l₂)

theorem suffix_cons_of {l₁ l₂ : Str} (c : Char) (h : l₁ <:+ l₂) : l₁ <:+ c :: l₂ :=
  h.trans (List.suffix_cons c l₂)

theorem not_prefix_of_isPrefixOf_false {pat s : Str} (hp : pat.isPrefixOf s = false) :
    ¬ pat <+: s := by
  intro h
  rw [← List.isPrefixOf_iff_prefix] at h
  rw [hp] at h
  exact Bool.false_ne_true h

/-- If the pattern does not occur in `s`, the scan leaves `s` unchanged. -/
theorem replaceFuel_eq_self (pat rep : Str) :
    ∀ fuel s, ¬ pat <:+: s → replaceFuel pat rep fuel s = s := by
  intro fuel
  induction fuel with
  | zero => intro s _; cases s <;> rfl
  | succ n ih =>
    intro s h
    cases s with
    | nil => rfl
    | cons c cs =>
      cases hp : pat.isPrefixOf (c :: cs) with
      | true =>
        exact absurd (List.isPrefixOf_iff_prefix.mp hp).isInfix h
      | false =>
        have hcs : ¬ pat <:+: cs := fun hin => h (List.infix_cons hin)
        simp only [replaceFuel, hp]
        simp [ih cs hcs]

/-- A length-one rewriting of the recursion in the matching branch. -/
theorem drop_pred_cons (pat : Str) (c : Char) (cs : Str) (hpat : pat ≠ []) :
    cs.drop (pat.length - 1) = (c :: cs).drop pat.length := by
  cases pat with
  | nil => exact absurd rfl hpat
  | cons a as => simp [List.drop_succ_cons]

theorem replaceFuel_nil (pat rep : Str) (fuel : Nat) : replaceFuel pat rep fuel [] = [] := by
  cases fuel <;> rfl

/-- If `pat` is a suffix of `s` and cannot overlap itself, the scan rewrites
the final occurrence, so the result ends with `rep`. -/
theorem replaceFuel_suffix_rep (pat rep : Str) (hov : overlapFree pat) (hpat : pat ≠ []) :
    ∀ fuel s, pat <:+ s → s.length ≤ fuel → rep <:+ replaceFuel pat rep fuel s := by
  intro fuel
  induction fuel with
  | zero =>
    intro s hsuf hl
    have : s = [] := List.eq_nil_of_length_eq_zero (Nat.le_zero.mp hl)
    subst this
    exact absurd (List.suffix_nil.mp hsuf) hpat
  | succ n ih =>
    intro s hsuf hl
    cases s with
    | nil => exact absurd (List.suffix_nil.mp hsuf) hpat
    | cons c cs =>
      cases hp : pat.isPrefixOf (c :: cs) with
      | true =>
        have hpre : pat <+: c :: cs := List.isPrefixOf_iff_prefix.mp hp
        obtain ⟨v, hv⟩ := hpre
        obtain ⟨w, hw⟩ := hsuf
        simp only [replaceFuel, hp, if_true]
        rw [drop_pred_cons pat c cs hpat]
        rcases Nat.lt_or_ge w.length pat.length with hwl | hwl
        · rcases Nat.eq_zero_or_pos w.length with hw0 | hw0
          · -- the whole string is exactly `pat`
            have hwnil : w = [] := List.eq_nil_of_length_eq_zero hw0
            subst hwnil
            simp only [List.nil_append] at hw
            rw [← hw, List.drop_length, replaceFuel_nil, List.append_nil]
          · -- an occurrence overlapping the final one: impossible
            exfalso
            have heq : pat ++ v = w ++ pat := by rw [hv, hw]
            have htk : pat = w ++ pat.take (pat.length - w.length) := by
              calc pat = (pat ++ v).take pat.length := (List.take_left pat v).symm
                _ = (w ++ pat).take pat.length := by rw [heq]
                _ = w ++ pat.take (pat.length - w.length) := by
                    rw [List.take_append_eq_append_take,
                      List.take_of_length_le (Nat.le_of_lt hwl)]
            have hdk : pat.drop w.length = pat.take (pat.length - w.length) := by
              calc pat.drop w.length
                  = (w ++ pat.take (pat.length - w.length)).drop w.length := by rw [← htk]
                _ = pat.take (pat.length - w.length) := List.drop_left w _
            exact hov w.length hwl hw0 hdk
        · -- the suffix occurrence survives dropping the matched occurrence
          have hdrop : (c :: cs).drop pat.length = w.drop pat.length ++ pat := by
            rw [← hw, List.drop_append_eq_append_drop, Nat.sub_eq_zero_of_le hwl,
              List.drop_zero]
          have hsuf2 : pat <:+ (c :: cs).drop pat.length := by
            rw [hdrop]; exact List.suffix_append _ _
          have hlen2 : ((c :: cs).drop pat.length).length ≤ n := by
            have h5 : 0 < pat.length := List.length_pos.mpr hpat
            simp only [List.length_drop, List.length_cons]
            simp only [List.length_cons] at hl
            omega
          exact suffix_append_left rep (ih _ hsuf2 hlen2)
      | false =>
        have hpre : ¬ pat <+: c :: cs := not_prefix_of_isPrefixOf_false hp
        rcases List.suffix_cons_iff.mp hsuf with heq | htail
        · exact absurd (heq ▸ List.prefix_refl pat) hpre
        · simp only [replaceFuel, hp]
          simp only [List.length_cons] at hl
          exact suffix_cons_of c (ih cs htail (Nat.le_of_succ_le_succ hl))

/-- If no occurrence of `pat` can intersect the final `suf` region, the scan
preserves that suffix. -/
theorem replaceFuel_preserves_suffix (pat rep suf : Str) (hpat : pat ≠ [])
    (hns : NoSufOverlap pat suf) :
    ∀ fuel t, (t ++ suf).length ≤ fuel → suf <:+ replaceFuel pat rep fuel (t ++ suf) := by
  intro fuel
  induction fuel with
  | zero =>
    intro t hl
    have : t ++ suf = [] := List.eq_nil_of_length_eq_zero (Nat.le_zero.mp hl)
    rcases List.append_eq_nil.mp this with ⟨h1, h2⟩
    subst h1; subst h2
    exact List.suffix_rfl
  | succ n ih =>
    intro t hl
    cases hs : t ++ suf with
    | nil =>
      rcases List.append_eq_nil.mp hs with ⟨h1, h2⟩
      subst h1
      rw [h2]
      exact List.suffix_rfl
    | cons c cs =>
      cases hp : pat.isPrefixOf (c :: cs) with
      | true =>
        have hpre : pat <+: c :: cs := List.isPrefixOf_iff_prefix.mp hp
        simp only [replaceFuel, hp, if_true]
        rw [drop_pred_cons pat c cs hpat]
        rcases Nat.lt_or_ge t.length pat.length with htl | htl
        · exfalso
          obtain ⟨v, hv⟩ := hpre
          rw [← hs] at hv
          rcases Nat.eq_zero_or_pos t.length with ht0 | ht0
          · -- pattern occurs inside `suf` itself
            have : t = [] := List.eq_nil_of_length_eq_zero ht0
            subst this
            simp only [List.nil_append] at hv
            exact hns.1 (List.IsPrefix.isInfix ⟨v, hv⟩)
          · -- pattern straddles the boundary into `suf`
            have htk : pat = t ++ suf.take (pat.length - t.length) := by
              calc pat = (pat ++ v).take pat.length := (List.take_left pat v).symm
                _ = (t ++ suf).take pat.length := by rw [hv]
                _ = t ++ suf.take (pat.length - t.length) := by
                    rw [List.take_append_eq_append_take,
                      List.take_of_length_le (Nat.le_of_lt htl)]
            have hdk : pat.drop t.length = suf.take (pat.length - t.length) := by
              calc pat.drop t.length
                  = (t ++ suf.take (pat.length - t.length)).drop t.length := by rw [← htk]
                _ = suf.take (pat.length - t.length) := List.drop_left t _
            exact hns.2 t.length htl ht0 hdk
        · have hdrop : (c :: cs).drop pat.length = t.drop pat.length ++ suf := by
            rw [← hs, List.drop_append_eq_append_drop, Nat.sub_eq_zero_of_le htl,
              List.drop_zero]
          have hlen2 : (t.drop pat.length ++ suf).length ≤ n := by
            have h5 : 0 < pat.length := List.length_pos.mpr hpat
            have h6 := hl
            simp only [List.length_append, List.length_drop] at h6 ⊢
            omega
          rw [hdrop]
          exact suffix_append_left rep (ih _ hlen2)
      | false =>
        simp only [replaceFuel, hp]
        cases t with
        | nil =>
          -- the scanned string is exactly `suf`: nothing can be rewritten
          simp only [List.nil_append] at hs
          have hcs : ¬ pat <:+: cs := by
            intro hin
            exact hns.1 (hs ▸ List.infix_cons hin)
          rw [replaceFuel_eq_self pat rep n cs hcs, ← hs]
          exact List.suffix_rfl
        | cons a t2 =>
          rw [List.cons_append] at hs
          injection hs with h1 h2
          subst h2
          have hlen2 : (t2 ++ suf).length ≤ n := by
            simp only [List.cons_append, List.length_cons, List.length_append] at hl
            simp only [List.length_append]
            omega
          exact suffix_cons_of c (ih t2 hlen2)

theorem pyReplace_eq_self {s pat rep : Str} (hpat : pat ≠ []) (h : ¬ pat <:+: s) :
    pyReplace s pat rep = s := by
  cases pat with
  | nil => exact absurd rfl hpat
  | cons a as =>
    simp only [pyReplace, List.isEmpty_cons, Bool.false_eq_true, if_false]
    exact replaceFuel_eq_self _ rep _ s h

theorem pyReplace_suffix_rep {s pat rep : Str} (hov : overlapFree pat) (hpat : pat ≠ [])
    (h : pat <:+ s) : rep <:+ pyReplace s pat rep := by
  cases pat with
  | nil => exact absurd rfl hpat
  | cons a as =>
    simp only [pyReplace, List.isEmpty_cons, Bool.false_eq_true, if_false]
    exact replaceFuel_suffix_rep _ rep hov hpat _ s h (Nat.le_refl _)

theorem pyReplace_preserves_suffix {s pat rep suf : Str} (hpat : pat ≠ [])
    (hns : NoSufOverlap pat suf) (h : suf <:+ s) : suf <:+ pyReplace s pat rep := by
  cases pat with
  | nil => exact absurd rfl hpat
  | cons a as =>
    obtain ⟨t, ht⟩ := h
    simp only [pyReplace, List.isEmpty_cons, Bool.false_eq_true, if_false]
    rw [← ht]
    exact replaceFuel_preserves_suffix _ rep suf hpat hns _ t (Nat.le_refl _)

/-! ## Facts about the extension table -/

theorem mem_ite_of_mem {c : Prop} [Decidable c] {a b : Str} {L : List Str}
    (ha : a ∈ L) (hb : b ∈ L) : (if c then a else b) ∈ L := by
  by_cases h : c
  · rw [if_pos h]; exact ha
  · rw [if_neg h]; exact hb

theorem processed_ext_mem (p : Str) : processed_ext p ∈ extList := by
  unfold processed_ext
  repeat apply mem_ite_of_mem (by decide)
  decide

theorem json_ne_nil : (".json".data : Str) ≠ [] := by decide

theorem json_overlapFree : overlapFree ".json".data := by decide

/-- Any source path ending in `.json` is mapped to a path ending in the
chosen extension. -/
theorem target_ext_suffix {p proj o : Str} (hp : ProjOk proj) (hj : ".json".data <:+ p) :
    processed_ext p <:+ processed_json_path p proj o := by
  unfold processed_json_path
  exact pyReplace_preserves_suffix hp.1 (hp.2 _ (processed_ext_mem p))
    (pyReplace_suffix_rep json_overlapFree json_ne_nil hj)

theorem ext_facts :
    ∀ e ∈ extList, 5 ≤ e.length ∧ ¬ (".json".data <:+ e) ∧ ¬ (".bfbs".data <:+ e) := by
  decide

/-- Target paths never end in `.json` again. -/
theorem target_not_json {p proj o : Str} (hp : ProjOk proj) (hj : ".json".data <:+ p) :
    ¬ (".json".data <:+ processed_json_path p proj o) := by
  intro hcon
  have hext := target_ext_suffix (o := o) hp hj
  have hfacts := ext_facts _ (processed_ext_mem p)
  exact hfacts.2.1 (List.suffix_of_suffix_length_le hcon hext hfacts.1)

/-- Target paths never end in `.bfbs`. -/
theorem target_not_bfbs {p proj o : Str} (hp : ProjOk proj) (hj : ".json".data <:+ p) :
    ¬ (".bfbs".data <:+ processed_json_path p proj o) := by
  intro hcon
  have hext := target_ext_suffix (o := o) hp hj
  have hfacts := ext_facts _ (processed_ext_mem p)
  exact hfacts.2.2 (List.suffix_of_suffix_length_le hcon hext hfacts.1)

/-! ## Facts about glob matching -/

theorem dropPre?_eq_some {pre s r : Str} : dropPre? pre s = some r ↔ s = pre ++ r := by
  induction pre generalizing s with
  | nil => simp [dropPre?]
  | cons c cs ih =>
    cases s with
    | nil => simp [dropPre?]
    | cons d ds =>
      by_cases hc : c = d
      · subst hc
        simp [dropPre?, ih]
      · simp [dropPre?, hc]
        intro h
        exact absurd h.symm hc

theorem dropPre?_append (p x : Str) : dropPre? p (p ++ x) = some x :=
  dropPre?_eq_some.mpr rfl

theorem splitSeg_ne_nil (s : Str) : splitSeg s ≠ [] := by
  cases s with
  | nil => simp [splitSeg]
  | cons c rest =>
    by_cases hc : c = '/'
    · simp [splitSeg, hc]
    · simp only [splitSeg, hc, if_false]
      cases hsp : splitSeg rest <;> simp

theorem splitSeg_singleton {s r : Str} (h : splitSeg s = [r]) : s = r := by
  induction s generalizing r with
  | nil =>
    have h2 : ([[]] : List Str) = [r] := h
    simp only [List.cons.injEq, and_true] at h2
    exact h2
  | cons c rest ih =>
    by_cases hc : c = '/'
    · simp only [splitSeg, hc, if_true] at h
      injection h with _ h2
      exact absurd h2 (splitSeg_ne_nil rest)
    · simp only [splitSeg, hc, if_false] at h
      cases hsp : splitSeg rest with
      | nil => exact absurd hsp (splitSeg_ne_nil rest)
      | cons s0 ss =>
        rw [hsp] at h
        injection h with h1 h2
        subst h2
        rw [← h1, ih (by rw [hsp])]

theorem splitSeg_getLast_suffix {s l : Str} (h : (splitSeg s).getLast? = some l) : l <:+ s := by
  induction s generalizing l with
  | nil =>
    simp only [splitSeg, List.getLast?_singleton] at h
    injection h with h1
    rw [← h1]
  | cons c rest ih =>
    by_cases hc : c = '/'
    · simp only [splitSeg, hc, if_true] at h
      cases hsp : splitSeg rest with
      | nil => exact absurd hsp (splitSeg_ne_nil rest)
      | cons s0 ss =>
        rw [hsp, List.getLast?_cons_cons, ← hsp] at h
        exact suffix_cons_of c (ih h)
    · simp only [splitSeg, hc, if_false] at h
      cases hsp : splitSeg rest with
      | nil => exact absurd hsp (splitSeg_ne_nil rest)
      | cons s0 ss =>
        rw [hsp] at h
        cases ss with
        | nil =>
          simp only [List.getLast?_singleton] at h
          injection h with h1
          rw [← h1, ← splitSeg_singleton hsp]
        | cons s1 ss2 =>
          rw [List.getLast?_cons_cons] at h
          have : (splitSeg rest).getLast? = some l := by
            rw [hsp, List.getLast?_cons_cons]
            exact h
          exact suffix_cons_of c (ih this)

theorem globMatches_star_eq (proj suf f : Str) :
    globMatches proj (.star suf) f
      = match dropPre? (proj ++ "/".data) f with
        | some name => (¬ name.any (fun c => c = '/')) && nameMatchesStar suf name
        | none => false := rfl

theorem globMatches_subdir_eq (proj dir f : Str) :
    globMatches proj (.subdir dir) f
      = match dropPre? (proj ++ "/".data ++ dir ++ "/".data) f with
        | some rest => recMatch rest
        | none => false := rfl

theorem nameMatchesStar_suffix {suf name : Str} (h : nameMatchesStar suf name = true) :
    suf <:+ name := by
  unfold nameMatchesStar at h
  rcases Bool.and_eq_true_iff.mp h with ⟨_, h2⟩
  exact List.isSuffixOf_iff_suffix.mp h2

/-- Every file matched by one of the registry glob patterns ends in a
suffix ending in `.json`. -/
theorem globMatches_ends_json {proj f : Str} {pat : SrcPattern}
    (hpat : match pat with
      | .star suf => ".json".data <:+ suf
      | .subdir _ => True)
    (h : globMatches proj pat f = true) : ".json".data <:+ f := by
  cases pat with
  | star suf =>
    rw [globMatches_star_eq] at h
    cases hdp : dropPre? (proj ++ "/".data) f with
    | none => rw [hdp] at h; exact Bool.noConfusion h
    | some name =>
      simp only [hdp] at h
      rcases Bool.and_eq_true_iff.mp h with ⟨_, h2⟩
      have hsufn : suf <:+ name := nameMatchesStar_suffix h2
      have hf : f = (proj ++ "/".data) ++ name := dropPre?_eq_some.mp hdp
      rw [hf]
      exact suffix_append_left _ (hpat.trans hsufn)
  | subdir dir =>
    rw [globMatches_subdir_eq] at h
    cases hdp : dropPre? (proj ++ "/".data ++ dir ++ "/".data) f with
    | none => rw [hdp] at h; exact Bool.noConfusion h
    | some rest =>
      simp only [hdp] at h
      unfold recMatch at h
      rcases Bool.and_eq_true_iff.mp h with ⟨_, h2⟩
      cases hgl : (splitSeg rest).getLast? with
      | none => simp [hgl] at h2
      | some nm =>
        simp only [hgl] at h2
        have hnm : ".json".data <:+ nm := nameMatchesStar_suffix h2
        have hrest : nm <:+ rest := splitSeg_getLast_suffix hgl
        have hf : f = (proj ++ "/".data ++ dir ++ "/".data) ++ rest := dropPre?_eq_some.mp hdp
        rw [hf]
        exact suffix_append_left _ (hnm.trans hrest)

/-! ## Boolean bridges for the matching primitives -/

theorem strEndsWith_eq_true {p x : Str} (h : x <:+ p) : strEndsWith p x = true := by
  rw [strEndsWith]
  exact List.isSuffixOf_iff_suffix.mpr h

theorem strEndsWith_eq_false {p x : Str} (h : ¬ x <:+ p) : strEndsWith p x = false := by
  rw [strEndsWith, Bool.eq_false_iff]
  intro hb
  exact h (List.isSuffixOf_iff_suffix.mp hb)

theorem strContains_eq_true {p x : Str} (h : x <:+: p) : strContains p x = true := by
  simp [strContains, h]

theorem strContains_eq_false {p x : Str} (h : ¬ x <:+: p) : strContains p x = false := by
  simp [strContains, h]

/-! ## Lemmas about the filesystem primitives -/

theorem lookupM_eq_none {l : List (Str × Nat)} {p : Str} :
    lookupM l p = none ↔ ∀ e ∈ l, ¬ e.1 = p := by
  induction l with
  | nil => simp [lookupM]
  | cons e es ih =>
    by_cases he : e.1 = p
    · simp [lookupM, he]
    · simp [lookupM, he, ih]

theorem isfile_of_mem {fs : FS} {p : Str} {m : Nat} (h : (p, m) ∈ fs.files) :
    fs.isfile p = true := by
  rw [FS.isfile, FS.mtime]
  cases hl : lookupM fs.files p with
  | some t => rfl
  | none => exact absurd rfl (lookupM_eq_none.mp hl (p, m) h)

theorem mem_globFiles {fs : FS} {proj f : Str} {pat : SrcPattern}
    (h : f ∈ globFiles fs proj pat) :
    globMatches proj pat f = true ∧ fs.isfile f = true := by
  unfold globFiles at h
  rcases List.mem_filter.mp h with ⟨hmem, hmatch⟩
  rcases List.mem_map.mp hmem with ⟨e, he, rfl⟩
  exact ⟨hmatch, isfile_of_mem (show (e.1, e.2) ∈ fs.files by simpa using he)⟩

/-! ## The chosen extension in specific cases -/

theorem processed_ext_config {p : Str} (h : "config.json".data <:+ p) :
    processed_ext p = ".amconfig".data := by
  unfold processed_ext
  rw [strEndsWith_eq_true h]
  simp

theorem processed_ext_events {p : Str}
    (h1 : ¬ ("config.json".data <:+ p)) (h2 : ¬ ("buses.json".data <:+ p))
    (h3 : ¬ (SOUNDBANKS_DIR_NAME <:+: p)) (h4 : ¬ (COLLECTIONS_DIR_NAME <:+: p))
    (h5 : EVENTS_DIR_NAME <:+: p) :
    processed_ext p = ".amevent".data := by
  unfold processed_ext
  rw [strEndsWith_eq_false h1, strEndsWith_eq_false h2, strContains_eq_false h3,
    strContains_eq_false h4, strContains_eq_true h5]
  simp

theorem processed_ext_no_match {p : Str}
    (h1 : ¬ ("config.json".data <:+ p)) (h2 : ¬ ("buses.json".data <:+ p))
    (h3 : ¬ (SOUNDBANKS_DIR_NAME <:+: p)) (h4 : ¬ (COLLECTIONS_DIR_NAME <:+: p))
    (h5 : ¬ (EVENTS_DIR_NAME <:+: p)) (h6 : ¬ (PIPELINES_DIR_NAME <:+: p))
    (h7 : ¬ (ATTENUATORS_DIR_NAME <:+: p)) (h8 : ¬ (SWITCHES_DIR_NAME <:+: p))
    (h9 : ¬ (SWITCH_CONTAINERS_DIR_NAME <:+: p)) (h10 : ¬ (RTPC_DIR_NAME <:+: p))
    (h11 : ¬ (SOUNDS_DIR_NAME <:+: p)) (h12 : ¬ (ENVIRONMENTS_DIR_NAME <:+: p)) :
    processed_ext p = ".ambin".data := by
  unfold processed_ext
  rw [strEndsWith_eq_false h1, strEndsWith_eq_false h2, strContains_eq_false h3,
    strContains_eq_false h4, strContains_eq_false h5, strContains_eq_false h6,
    strContains_eq_false h7, strContains_eq_false h8, strContains_eq_false h9,
    strContains_eq_false h10, strContains_eq_false h11, strContains_eq_false h12]
  simp

/-! ## Claim C7 -/

/-- C7: for every schema name and ordered list of search directories,
`find_in_paths` returns `searchPath/name` for the first search path whose
join with the name is a regular file, and the bare name when none matches;
it is a total function (it never raises) on all inputs. -/
theorem c7_find_in_paths_first_match (fs : FS) (name : Str) (paths : List Str) :
    find_in_paths fs name paths
      = match paths.find? (fun p => fs.isfile (pjoin p name)) with
        | some p => pjoin p name
        | none => name := by
  induction paths with
  | nil => rfl
  | cons p rest ih =>
    cases hp : fs.isfile (pjoin p name) with
    | true =>
      have hf : List.find? (fun q => fs.isfile (pjoin q name)) (p :: rest) = some p :=
        List.find?_cons_of_pos _ hp
      rw [hf]
      simp [find_in_paths, hp]
    | false =>
      have hf : List.find? (fun q => fs.isfile (pjoin q name)) (p :: rest)
          = List.find? (fun q => fs.isfile (pjoin q name)) rest :=
        List.find?_cons_of_neg _ (by simp [hp])
      rw [hf]
      simp [find_in_paths, hp, ih]

/-! ## Claim C10 -/

/-- C10: `needs_rebuild` returns a boolean whenever the source is a regular
file, but when the target exists and the source path does not, the
modification-time lookup on the source raises (modelled as `none`) instead
of returning a boolean; sources obtained from directory enumeration are
always regular files, satisfying the precondition. -/
theorem c10_needs_rebuild_source_precondition :
    (∀ (fs : FS) (s t : Str), fs.isfile s = true → (needs_rebuild fs s t).isSome = true)
    ∧ (∀ (fs : FS) (s t : Str), fs.isfile t = true → fs.existsPath s = false →
        needs_rebuild fs s t = none)
    ∧ (∀ (fs : FS) (proj : Str) (spaths : List Str) (e : FlatbuffersConversionData)
        (j : Str), e ∈ get_conversion_data fs proj spaths → j ∈ e.input_files →
        fs.isfile j = true) := by
  refine ⟨?_, ?_, ?_⟩
  · intro fs s t hs
    unfold needs_rebuild
    cases hft : fs.isfile t with
    | false => simp
    | true =>
      rcases Option.isSome_iff_exists.mp (by rw [← FS.isfile]; exact hs) with ⟨ms, hms⟩
      rcases Option.isSome_iff_exists.mp (by rw [← FS.isfile]; exact hft) with ⟨mt, hmt⟩
      simp [hms, hmt]
  · intro fs s t ht hs
    have hsf : fs.isfile s = false := by
      rcases Bool.or_eq_false_iff.mp (by rw [← FS.existsPath]; exact hs) with ⟨h1, _⟩
      exact h1
    have hms : fs.mtime s = none := by
      cases hm : fs.mtime s with
      | none => rfl
      | some m => rw [FS.isfile, hm] at hsf; exact absurd hsf (by simp)
    unfold needs_rebuild
    rw [ht, hms]
    cases fs.mtime t <;> simp
  · intro fs proj spaths e j he hj
    unfold get_conversion_data at he
    rcases List.mem_map.mp he with ⟨r, _, rfl⟩
    exact (mem_globFiles hj).2

/-- Witness for C10 at a concrete filesystem: the target exists, the source
does not, and the lookup raises. -/
theorem c10_witness :
    ((⟨[("t".data, 1)], []⟩ : FS).isfile "t".data = true)
    ∧ ((⟨[("t".data, 1)], []⟩ : FS).existsPath "s".data = false)
    ∧ needs_rebuild ⟨[("t".data, 1)], []⟩ "s".data "t".data = none :=
  ⟨by decide, by decide,
    c10_needs_rebuild_source_precondition.2.1 ⟨[("t".data, 1)], []⟩ "s".data "t".data
      (by decide) (by decide)⟩

/-! ## Claim C3 -/

/-- C3: every source path whose filename ends in `config.json` is mapped to
a path ending in `.amconfig`, whatever its directory components are —
including directories whose names contain `.json` — provided only that the
project-root prefix being rewritten is non-empty and cannot overlap the
trailing `.amconfig`. -/
theorem c3_config_json_maps_to_amconfig (p inp out : Str)
    (hcfg : "config.json".data <:+ p) (hinp : inp ≠ [])
    (hno : NoSufOverlap inp ".amconfig".data) :
    ".amconfig".data <:+ processed_json_path p inp out := by
  have hj : ".json".data <:+ p := List.IsSuffix.trans (by decide) hcfg
  have hstage1 : ".amconfig".data <:+ pyReplace p ".json".data (processed_ext p) := by
    rw [processed_ext_config hcfg]
    exact pyReplace_suffix_rep json_overlapFree json_ne_nil hj
  unfold processed_json_path
  exact pyReplace_preserves_suffix hinp hno hstage1

/-- Witness for C3, with a directory whose name contains `.json`. -/
theorem c3_witness :
    ("config.json".data <:+ "zz/v.json.d/a.config.json".data)
    ∧ ("zz".data ≠ ([] : Str))
    ∧ NoSufOverlap "zz".data ".amconfig".data
    ∧ ".amconfig".data <:+
        processed_json_path "zz/v.json.d/a.config.json".data "zz".data "out".data :=
  ⟨by decide, by decide, by decide,
    c3_config_json_maps_to_amconfig "zz/v.json.d/a.config.json".data "zz".data "out".data
      (by decide) (by decide) (by decide)⟩

/-! ## Claim C9 -/

/-- C9: every `.json` source path matching none of the naming rules — no
`config.json`/`buses.json` suffix and none of the ten category substrings,
which is the case for files under the `effects` directory — is mapped to a
path ending in the generic `.ambin`, under the same non-degeneracy side
conditions on the rewritten project-root prefix. -/
theorem c9_no_match_maps_to_ambin (p inp out : Str)
    (hjson : ".json".data <:+ p)
    (h1 : ¬ ("config.json".data <:+ p)) (h2 : ¬ ("buses.json".data <:+ p))
    (h3 : ¬ (SOUNDBANKS_DIR_NAME <:+: p)) (h4 : ¬ (COLLECTIONS_DIR_NAME <:+: p))
    (h5 : ¬ (EVENTS_DIR_NAME <:+: p)) (h6 : ¬ (PIPELINES_DIR_NAME <:+: p))
    (h7 : ¬ (ATTENUATORS_DIR_NAME <:+: p)) (h8 : ¬ (SWITCHES_DIR_NAME <:+: p))
    (h9 : ¬ (SWITCH_CONTAINERS_DIR_NAME <:+: p)) (h10 : ¬ (RTPC_DIR_NAME <:+: p))
    (h11 : ¬ (SOUNDS_DIR_NAME <:+: p)) (h12 : ¬ (ENVIRONMENTS_DIR_NAME <:+: p))
    (hinp : inp ≠ []) (hno : NoSufOverlap inp ".ambin".data) :
    ".ambin".data <:+ processed_json_path p inp out := by
  have hstage1 : ".ambin".data <:+ pyReplace p ".json".data (processed_ext p) := by
    rw [processed_ext_no_match h1 h2 h3 h4 h5 h6 h7 h8 h9 h10 h11 h12]
    exact pyReplace_suffix_rep json_overlapFree json_ne_nil hjson
  unfold processed_json_path
  exact pyReplace_preserves_suffix hinp hno hstage1

/-- Witness for C9 at a file enumerated under the `effects` directory. -/
theorem c9_witness :
    (".json".data <:+ "zz/effects/a.json".data)
    ∧ ¬ (SOUNDS_DIR_NAME <:+: "zz/effects/a.json".data)
    ∧ ".ambin".data <:+ processed_json_path "zz/effects/a.json".data "zz".data "out".data :=
  ⟨by decide, by decide,
    c9_no_match_maps_to_ambin "zz/effects/a.json".data "zz".data "out".data
      (by decide) (by decide) (by decide) (by decide) (by decide) (by decide) (by decide)
      (by decide) (by decide) (by decide) (by decide) (by decide) (by decide) (by decide)
      (by decide)⟩

/-! ## Claim C1 -/

/-- C1 counterexample: the path `zz/sounds/events/a.json` contains both a
`sounds` segment and an `events` segment, yet is mapped to `.amevent`, not
`.amsound` as the claim requires — the source checks `events` before
`sounds`. -/
theorem c1_counterexample :
    (SOUNDS_DIR_NAME <:+: "zz/sounds/events/a.json".data)
    ∧ (EVENTS_DIR_NAME <:+: "zz/sounds/events/a.json".data)
    ∧ processed_json_path "zz/sounds/events/a.json".data "zz".data "out".data
        = "out/sounds/events/a.amevent".data
    ∧ ¬ (".amsound".data <:+
          processed_json_path "zz/sounds/events/a.json".data "zz".data "out".data) := by
  refine ⟨by decide, by decide, by decide, by decide⟩

/-- C1 (amended): the naming rules are a strict first-match priority chain
in the order config.json, buses.json, soundbanks, collections, events,
pipelines, attenuators, switches, switch_containers, rtpc, sounds,
environments, with the `.ambin` fallback — `sounds` is checked eleventh,
after `rtpc`, not fifth; consequently a path containing both a `sounds`
and an `events` segment (and matching no earlier rule) maps to `.amevent`. -/
theorem c1_priority_chain :
    (∀ p, processed_ext p = firstMatchExt amendedRuleChain p)
    ∧ (∀ p, SOUNDS_DIR_NAME <:+: p → EVENTS_DIR_NAME <:+: p →
        ¬ ("config.json".data <:+ p) → ¬ ("buses.json".data <:+ p) →
        ¬ (SOUNDBANKS_DIR_NAME <:+: p) → ¬ (COLLECTIONS_DIR_NAME <:+: p) →
        processed_ext p = ".amevent".data) := by
  constructor
  · intro p
    rfl
  · intro p _ h5 h1 h2 h3 h4
    exact processed_ext_events h1 h2 h3 h4 h5

/-- Witness for the amended C1 at a path with both segments. -/
theorem c1_witness :
    (SOUNDS_DIR_NAME <:+: "zz/sounds/events/a.json".data)
    ∧ (EVENTS_DIR_NAME <:+: "zz/sounds/events/a.json".data)
    ∧ processed_ext "zz/sounds/events/a.json".data = ".amevent".data :=
  ⟨by decide, by decide,
    c1_priority_chain.2 "zz/sounds/events/a.json".data (by decide) (by decide) (by decide)
      (by decide) (by decide) (by decide)⟩

/-! ## Lemmas about the per-unit build step -/

theorem run_subprocess_calls (C : Compiler) (st : BuildSt) (argv : List Str) :
    (run_subprocess C st argv).calls = st.calls ++ [argv] := by
  unfold run_subprocess
  cases C.run argv st.fs with
  | launchFail msg => rfl
  | ran code fs1 => by_cases hc : code = 0 <;> simp [hc]

theorem needs_rebuild_files_eq {fs fs2 : FS} (h : fs2.files = fs.files) (s t : Str) :
    needs_rebuild fs2 s t = needs_rebuild fs s t := by
  unfold needs_rebuild FS.isfile FS.mtime
  rw [h]

theorem fs1Of_files (opts : CommandOptions) (fs : FS) (json : Str) :
    (fs1Of opts fs json).files = fs.files := by
  unfold fs1Of
  split <;> rfl

/-- `processUnit` rewritten with the named abbreviations. -/
theorem processUnit_unfold (C : Compiler) (opts : CommandOptions) (schema : Str)
    (st : BuildSt) (json : Str) :
    processUnit C opts schema st json =
      if st.err.isSome then st
      else
        match needs_rebuild (fs1Of opts st.fs json) json (targetOf opts json) with
        | none => ⟨fs1Of opts st.fs json, st.calls, some .osError⟩
        | some b1 =>
          if b1 then
            run_subprocess C ⟨fs1Of opts st.fs json, st.calls, st.err⟩ (cmdOf opts schema json)
          else
            match needs_rebuild (fs1Of opts st.fs json) schema (targetOf opts json) with
            | none => ⟨fs1Of opts st.fs json, st.calls, some .osError⟩
            | some b2 =>
              if b2 then
                run_subprocess C ⟨fs1Of opts st.fs json, st.calls, st.err⟩
                  (cmdOf opts schema json)
              else ⟨fs1Of opts st.fs json, st.calls, st.err⟩ := rfl

theorem processUnit_err (C : Compiler) (opts : CommandOptions) (schema : Str)
    (st : BuildSt) (json : Str) (e : RunError) (he : st.err = some e) :
    processUnit C opts schema st json = st := by
  rw [processUnit_unfold, he]
  rfl

theorem processUnit_no_error (C : Compiler) (opts : CommandOptions) (schema : Str)
    (st : BuildSt) (json : Str) (b1 b2 : Bool) (he : st.err = none)
    (hb1 : needs_rebuild st.fs json (targetOf opts json) = some b1)
    (hb2 : needs_rebuild st.fs schema (targetOf opts json) = some b2) :
    processUnit C opts schema st json =
      if b1 || b2 then
        run_subprocess C ⟨fs1Of opts st.fs json, st.calls, none⟩ (cmdOf opts schema json)
      else ⟨fs1Of opts st.fs json, st.calls, none⟩ := by
  rw [processUnit_unfold, he]
  rw [needs_rebuild_files_eq (fs1Of_files opts st.fs json) json (targetOf opts json),
    needs_rebuild_files_eq (fs1Of_files opts st.fs json) schema (targetOf opts json),
    hb1, hb2]
  cases b1 <;> cases b2 <;> simp

theorem foldl_processUnit_err (C : Compiler) (opts : CommandOptions) (schema : Str)
    {st : BuildSt} {e : RunError} (he : st.err = some e) (js : List Str) :
    js.foldl (processUnit C opts schema) st = st := by
  induction js with
  | nil => rfl
  | cons j js2 ih =>
    rw [List.foldl_cons, processUnit_err C opts schema st j e he]
    exact ih

theorem foldl_data_err (C : Compiler) (opts : CommandOptions) {st : BuildSt} {e : RunError}
    (he : st.err = some e) (data : List FlatbuffersConversionData) :
    data.foldl (fun s el => el.input_files.foldl (processUnit C opts el.schema) s) st = st := by
  induction data with
  | nil => rfl
  | cons d ds ih =>
    rw [List.foldl_cons, foldl_processUnit_err C opts d.schema he]
    exact ih

/-! ## Claim C4 -/

/-- C4: when the source is a regular file, `needs_rebuild` returns `true`
iff the target does not exist or the source modification time is strictly
greater than the target's (equal timestamps return `false`); and one build
unit issues a compiler invocation iff this holds for the data source or for
the schema against the target. -/
theorem c4_needs_rebuild_characterization :
    (∀ (fs : FS) (s t : Str) (ms : Nat), fs.mtime s = some ms →
      (needs_rebuild fs s t = some true ↔
        fs.isfile t = false ∨ ∃ mt, fs.mtime t = some mt ∧ mt < ms)
      ∧ (needs_rebuild fs s t = some false ↔ ∃ mt, fs.mtime t = some mt ∧ ms ≤ mt))
    ∧ (∀ (C : Compiler) (opts : CommandOptions) (schema : Str) (st : BuildSt) (json : Str)
        (b1 b2 : Bool), st.err = none →
        needs_rebuild st.fs json (targetOf opts json) = some b1 →
        needs_rebuild st.fs schema (targetOf opts json) = some b2 →
        (processUnit C opts schema st json).calls
          = if b1 || b2 then st.calls ++ [cmdOf opts schema json] else st.calls) := by
  constructor
  · intro fs s t ms hms
    unfold needs_rebuild
    cases hft : fs.isfile t with
    | false =>
      have hmt : fs.mtime t = none := by
        cases h : fs.mtime t with
        | none => rfl
        | some m => rw [FS.isfile, h] at hft; simp at hft
      constructor
      · simp [hft, hmt]
      · simp [hft, hmt]
    | true =>
      rcases Option.isSome_iff_exists.mp (show (fs.mtime t).isSome = true from hft)
        with ⟨mt, hmt⟩
      constructor
      · simp [hft, hms, hmt]
      · simp [hft, hms, hmt, Nat.not_lt]
  · intro C opts schema st json b1 b2 he hb1 hb2
    rw [processUnit_no_error C opts schema st json b1 b2 he hb1 hb2]
    cases hbb : b1 || b2 with
    | true => simp [run_subprocess_calls]
    | false => simp

/-- Witness for C4: a stale sound source triggers exactly one invocation. -/
theorem c4_witness :
    (wfs.mtime "zz/sounds/a.json".data = some 5)
    ∧ (needs_rebuild wfs "zz/sounds/a.json".data (targetOf wopts "zz/sounds/a.json".data)
        = some true ↔
        wfs.isfile (targetOf wopts "zz/sounds/a.json".data) = false
          ∨ ∃ mt, wfs.mtime (targetOf wopts "zz/sounds/a.json".data) = some mt ∧ mt < 5)
    ∧ ((processUnit wcompOk wopts "zs/sound_definition.bfbs".data ⟨wfs, [], none⟩
          "zz/sounds/a.json".data).calls
        = if (true || false : Bool) then
            [] ++ [cmdOf wopts "zs/sound_definition.bfbs".data "zz/sounds/a.json".data]
          else []) :=
  ⟨by decide,
    (c4_needs_rebuild_characterization.1 wfs "zz/sounds/a.json".data
      (targetOf wopts "zz/sounds/a.json".data) 5 (by decide)).1,
    c4_needs_rebuild_characterization.2 wcompOk wopts "zs/sound_definition.bfbs".data
      ⟨wfs, [], none⟩ "zz/sounds/a.json".data true false rfl (by decide) (by decide)⟩

/-! ## Claim C5 -/

/-- C5: a compiler launch failure raises `BuildError(argv, 1, oserror)` and
a non-zero exit raises `BuildError(argv, code)`, each recording the
attempted command line; the orchestrator never catches the error — once it
is propagating, every remaining source file and every remaining category is
skipped untouched. -/
theorem c5_fail_fast :
    (∀ (C : Compiler) (st : BuildSt) (argv : List Str) (msg : Str),
        C.run argv st.fs = .launchFail msg →
        run_subprocess C st argv
          = ⟨st.fs, st.calls ++ [argv], some (.build ⟨argv, 1, msg⟩)⟩)
    ∧ (∀ (C : Compiler) (st : BuildSt) (argv : List Str) (code : Nat) (fs1 : FS),
        C.run argv st.fs = .ran code fs1 → code ≠ 0 →
        run_subprocess C st argv
          = ⟨fs1, st.calls ++ [argv], some (.build ⟨argv, code, []⟩)⟩)
    ∧ (∀ (C : Compiler) (opts : CommandOptions) (schema : Str) (st : BuildSt) (e : RunError)
        (js : List Str), st.err = some e → js.foldl (processUnit C opts schema) st = st)
    ∧ (∀ (C : Compiler) (opts : CommandOptions) (st : BuildSt) (e : RunError)
        (data : List FlatbuffersConversionData), st.err = some e →
        data.foldl (fun s el => el.input_files.foldl (processUnit C opts el.schema) s) st
          = st) := by
  refine ⟨?_, ?_, ?_, ?_⟩
  · intro C st argv msg h
    unfold run_subprocess
    rw [h]
  · intro C st argv code fs1 h hc
    unfold run_subprocess
    rw [h]
    simp [hc]
  · intro C opts schema st e js he
    exact foldl_processUnit_err C opts schema he js
  · intro C opts st e data he
    exact foldl_data_err C opts he data

/-- Witness for C5: a launch failure, an exit-2 failure, and the skipping of
all remaining files and categories while the error propagates. -/
theorem c5_witness :
    (wcompLaunchFail.run ["x".data] wfs = .launchFail "m".data)
    ∧ run_subprocess wcompLaunchFail ⟨wfs, [], none⟩ ["x".data]
        = ⟨wfs, [] ++ [["x".data]], some (.build ⟨["x".data], 1, "m".data⟩)⟩
    ∧ run_subprocess wcompExit2 ⟨wfs, [], none⟩ ["x".data]
        = ⟨wfs, [] ++ [["x".data]], some (.build ⟨["x".data], 2, []⟩)⟩
    ∧ (["zz/sounds/a.json".data].foldl
        (processUnit wcompOk wopts "zs/sound_definition.bfbs".data)
        ⟨wfs, [], some .osError⟩ = ⟨wfs, [], some .osError⟩)
    ∧ ((get_conversion_data wfs "zz".data ["zs".data]).foldl
        (fun s el => el.input_files.foldl (processUnit wcompOk wopts el.schema) s)
        ⟨wfs, [], some .osError⟩ = ⟨wfs, [], some .osError⟩) :=
  ⟨rfl,
    c5_fail_fast.1 wcompLaunchFail ⟨wfs, [], none⟩ ["x".data] "m".data rfl,
    c5_fail_fast.2.1 wcompExit2 ⟨wfs, [], none⟩ ["x".data] 2 wfs rfl (by decide),
    c5_fail_fast.2.2.1 wcompOk wopts "zs/sound_definition.bfbs".data
      ⟨wfs, [], some .osError⟩ .osError ["zz/sounds/a.json".data] rfl,
    c5_fail_fast.2.2.2 wcompOk wopts ⟨wfs, [], some .osError⟩ .osError
      (get_conversion_data wfs "zz".data ["zs".data]) rfl⟩

/-! ## Lemmas about the clean orchestrator -/

theorem cleanUnit_files (proj build : Str) (f : FS) (j : Str) :
    (cleanUnit proj build f j).files
      = f.files.filter (fun e => ¬ e.1 = processed_json_path j proj build) := by
  unfold cleanUnit
  cases hf : f.isfile (processed_json_path j proj build) with
  | true => simp [hf, FS.removeFile]
  | false =>
    have hnone : lookupM f.files (processed_json_path j proj build) = none := by
      cases h : lookupM f.files (processed_json_path j proj build) with
      | none => rfl
      | some m => rw [FS.isfile, FS.mtime, h] at hf; simp at hf
    have hall : ∀ e ∈ f.files, (decide (¬ e.1 = processed_json_path j proj build)) = true := by
      intro e he
      simpa using lookupM_eq_none.mp hnone e he
    simp only [hf, Bool.false_eq_true, if_false]
    exact (List.filter_eq_self.mpr hall).symm

theorem cleanUnit_dirs (proj build : Str) (f : FS) (j : Str) :
    (cleanUnit proj build f j).dirs = f.dirs := by
  unfold cleanUnit
  cases hf : f.isfile (processed_json_path j proj build) <;> simp [hf, FS.removeFile]

theorem foldl_cleanUnit (proj build : Str) (js : List Str) (f : FS) :
    ((js.foldl (cleanUnit proj build) f).files
      = f.files.filter (fun e =>
          decide (e.1 ∉ js.map (fun j => processed_json_path j proj build))))
    ∧ (js.foldl (cleanUnit proj build) f).dirs = f.dirs := by
  induction js generalizing f with
  | nil =>
    constructor
    · simp
    · rfl
  | cons j js2 ih =>
    rw [List.foldl_cons]
    rcases ih (cleanUnit proj build f j) with ⟨h1, h2⟩
    constructor
    · rw [h1, cleanUnit_files, List.filter_filter]
      apply List.filter_congr
      intro x _
      by_cases e1 : x.1 = processed_json_path j proj build <;>
        by_cases e2 : x.1 ∈ js2.map (fun j2 => processed_json_path j2 proj build) <;>
          simp [e1, e2]
    · rw [h2, cleanUnit_dirs]

theorem foldl_clean_data (proj build : Str) (data : List FlatbuffersConversionData) (f : FS) :
    ((data.foldl (fun g e => e.input_files.foldl (cleanUnit proj build) g) f).files
      = f.files.filter (fun e =>
          decide (e.1 ∉ (data.map FlatbuffersConversionData.input_files).flatten.map
            (fun j => processed_json_path j proj build))))
    ∧ (data.foldl (fun g e => e.input_files.foldl (cleanUnit proj build) g) f).dirs
        = f.dirs := by
  induction data generalizing f with
  | nil =>
    constructor
    · simp
    · rfl
  | cons d ds ih =>
    rw [List.foldl_cons]
    rcases ih (d.input_files.foldl (cleanUnit proj build) f) with ⟨h1, h2⟩
    rcases foldl_cleanUnit proj build d.input_files f with ⟨h3, h4⟩
    constructor
    · rw [h1, h3, List.filter_filter]
      apply List.filter_congr
      intro x _
      by_cases e1 : x.1 ∈ d.input_files.map (fun j => processed_json_path j proj build) <;>
        by_cases e2 : x.1 ∈ (ds.map FlatbuffersConversionData.input_files).flatten.map
            (fun j => processed_json_path j proj build) <;>
          simp [List.map_append, e1, e2]
    · rw [h2, h4]

theorem allTargets_eq_units_aux (proj build : Str) (L : List FlatbuffersConversionData) :
    (L.map FlatbuffersConversionData.input_files).flatten.map
        (fun j => processed_json_path j proj build)
      = ((L.map (fun e => e.input_files.map (fun j => (e.schema, j)))).flatten).map
          (fun u => processed_json_path u.2 proj build) := by
  induction L with
  | nil => rfl
  | cons d ds ih =>
    simp only [List.map_cons, List.flatten_cons, List.map_append, List.map_map]
    rw [ih]
    rfl

/-! ## Claim C8 -/

/-- C8: `clean` recomputes the same category → source file → target mapping
as the build (the same conversion data and the same `processed_json_path`
targets, with no staleness check), deletes exactly the file entries whose
path is a computed target — absent targets are silently fine — and touches
nothing else: non-target files and all directories survive unchanged. -/
theorem c8_clean_deletes_exactly_targets (opts : CommandOptions) (fs : FS) :
    ((clean_flatbuffers_binaries opts fs).files
      = fs.files.filter (fun e => decide (e.1 ∉ allTargets opts fs)))
    ∧ (clean_flatbuffers_binaries opts fs).dirs = fs.dirs
    ∧ allTargets opts fs
      = (unitsOf fs opts.project_path opts.schema_path).map
          (fun u => targetOf opts u.2) := by
  refine ⟨?_, ?_, ?_⟩
  · exact (foldl_clean_data opts.project_path opts.build_path
      (get_conversion_data fs opts.project_path [opts.schema_path]) fs).1
  · exact (foldl_clean_data opts.project_path opts.build_path
      (get_conversion_data fs opts.project_path [opts.schema_path]) fs).2
  · exact allTargets_eq_units_aux opts.project_path opts.build_path
      (get_conversion_data fs opts.project_path [opts.schema_path])

/-! ## No glob pattern of the registry reaches the environments directory -/

theorem take_eq_of_isPre {l₁ l₂ : Str} (n : Nat) (h : l₁ <+: l₂) (hn : n ≤ l₁.length) :
    l₁.take n = l₂.take n := by
  obtain ⟨t, ht⟩ := h
  rw [← ht, List.take_append_eq_append_take, Nat.sub_eq_zero_of_le hn, List.take_zero,
    List.append_nil]

theorem env_not_star (proj rest suf : Str) :
    globMatches proj (.star suf)
      (proj ++ "/".data ++ "environments".data ++ "/".data ++ rest) = false := by
  rw [globMatches_star_eq]
  have hdp : dropPre? (proj ++ "/".data)
      (proj ++ "/".data ++ "environments".data ++ "/".data ++ rest)
      = some ("environments".data ++ ("/".data ++ rest)) := by
    rw [show proj ++ "/".data ++ "environments".data ++ "/".data ++ rest
        = (proj ++ "/".data) ++ ("environments".data ++ ("/".data ++ rest)) by
      simp [List.append_assoc]]
    exact dropPre?_append _ _
  rw [hdp]
  have hm : ('/' : Char) ∈ "environments".data ++ ("/".data ++ rest) :=
    List.mem_append.mpr (Or.inr (List.mem_append.mpr (Or.inl (by decide))))
  have hany : ("environments".data ++ ("/".data ++ rest)).any (fun c => c = '/') = true :=
    List.any_eq_true.mpr ⟨'/', hm, by decide⟩
  simp [hany]

theorem env_not_subdir (proj rest d : Str) (hd2 : 2 ≤ d.length)
    (hne : d.take 2 ≠ ['e', 'n']) :
    globMatches proj (.subdir d)
      (proj ++ "/".data ++ "environments".data ++ "/".data ++ rest) = false := by
  rw [globMatches_subdir_eq]
  cases hdp : dropPre? (proj ++ "/".data ++ d ++ "/".data)
      (proj ++ "/".data ++ "environments".data ++ "/".data ++ rest) with
  | none => rfl
  | some r =>
    exfalso
    have hr := dropPre?_eq_some.mp hdp
    simp only [List.append_assoc] at hr
    have hr2 : "environments".data ++ ("/".data ++ rest)
        = d ++ ("/".data ++ r) := by
      have h1 := List.append_cancel_left hr
      exact List.append_cancel_left h1
    have hpre : (d ++ "/".data) <+: ("environments".data ++ ("/".data ++ rest)) := by
      refine ⟨r, ?_⟩
      rw [List.append_assoc]
      exact hr2.symm
    have ht := take_eq_of_isPre 2 hpre (by simp [List.length_append]; omega)
    rw [List.take_append_eq_append_take, Nat.sub_eq_zero_of_le hd2, List.take_zero,
      List.append_nil] at ht
    have hrhs : ("environments".data ++ ("/".data ++ rest)).take 2 = ['e', 'n'] := by
      rw [List.take_append_eq_append_take]
      rw [show (("environments".data : Str).take 2) = ['e', 'n'] from by decide,
        show (2 - ("environments".data : Str).length) = 0 from by decide]
      simp
    exact hne (ht.trans hrhs)

/-! ## Claim C2 -/

/-- C2 counterexample: on a project containing `zz/environments/a.json`,
`get_conversion_data` produces twelve conversion entries and none of them
enumerates the environments file — the registry has no environments entry,
so `build` and `clean` never process it. -/
theorem c2_counterexample :
    ((get_conversion_data ⟨[("zz/environments/a.json".data, 3)], []⟩ "zz".data
        ["zs".data]).length = 12)
    ∧ ∀ e ∈ get_conversion_data ⟨[("zz/environments/a.json".data, 3)], []⟩ "zz".data
        ["zs".data], "zz/environments/a.json".data ∉ e.input_files := by
  constructor
  · decide
  · decide

/-- C2 (amended): each invocation of build (and of clean) enumerates source
files for exactly the twelve registry categories — config, buses,
soundbanks, collections, sounds, events, pipelines, attenuators, switches,
switch-containers, rtpc, effects — in this order; there is no environments
category, and JSON files under the environments subdirectory of the project
root are never enumerated by any entry. -/
theorem c2_enumerated_categories :
    (conversionRegistry.map Prod.fst
        = [ "engine_config_definition.bfbs".data, "buses_definition.bfbs".data,
            "sound_bank_definition.bfbs".data, "collection_definition.bfbs".data,
            "sound_definition.bfbs".data, "event_definition.bfbs".data,
            "pipeline_definition.bfbs".data, "attenuation_definition.bfbs".data,
            "switch_definition.bfbs".data, "switch_container_definition.bfbs".data,
            "rtpc_definition.bfbs".data, "effect_definition.bfbs".data ]
      ∧ conversionRegistry.map Prod.snd
        = [ .star ".config.json".data, .star ".buses.json".data,
            .subdir SOUNDBANKS_DIR_NAME, .subdir COLLECTIONS_DIR_NAME,
            .subdir SOUNDS_DIR_NAME, .subdir EVENTS_DIR_NAME,
            .subdir PIPELINES_DIR_NAME, .subdir ATTENUATORS_DIR_NAME,
            .subdir SWITCHES_DIR_NAME, .subdir SWITCH_CONTAINERS_DIR_NAME,
            .subdir RTPC_DIR_NAME, .subdir EFFECTS_DIR_NAME ])
    ∧ (∀ (fs : FS) (proj rest : Str) (spaths : List Str)
        (e : FlatbuffersConversionData), e ∈ get_conversion_data fs proj spaths →
        (proj ++ "/".data ++ "environments".data ++ "/".data ++ rest) ∉ e.input_files) := by
  refine ⟨⟨by decide, by decide⟩, ?_⟩
  intro fs proj rest spaths e he hmem
  unfold get_conversion_data at he
  rcases List.mem_map.mp he with ⟨r, hr, rfl⟩
  have hmatch := (mem_globFiles hmem).1
  simp only [conversionRegistry, List.mem_cons, List.not_mem_nil, or_false] at hr
  rcases hr with rfl | rfl | rfl | rfl | rfl | rfl | rfl | rfl | rfl | rfl | rfl | rfl
  · exact Bool.noConfusion ((env_not_star proj rest _).symm.trans hmatch)
  · exact Bool.noConfusion ((env_not_star proj rest _).symm.trans hmatch)
  · exact Bool.noConfusion
      ((env_not_subdir proj rest SOUNDBANKS_DIR_NAME (by decide) (by decide)).symm.trans hmatch)
  · exact Bool.noConfusion
      ((env_not_subdir proj rest COLLECTIONS_DIR_NAME (by decide) (by decide)).symm.trans hmatch)
  · exact Bool.noConfusion
      ((env_not_subdir proj rest SOUNDS_DIR_NAME (by decide) (by decide)).symm.trans hmatch)
  · exact Bool.noConfusion
      ((env_not_subdir proj rest EVENTS_DIR_NAME (by decide) (by decide)).symm.trans hmatch)
  · exact Bool.noConfusion
      ((env_not_subdir proj rest PIPELINES_DIR_NAME (by decide) (by decide)).symm.trans hmatch)
  · exact Bool.noConfusion
      ((env_not_subdir proj rest ATTENUATORS_DIR_NAME (by decide) (by decide)).symm.trans hmatch)
  · exact Bool.noConfusion
      ((env_not_subdir proj rest SWITCHES_DIR_NAME (by decide) (by decide)).symm.trans hmatch)
  · exact Bool.noConfusion
      ((env_not_subdir proj rest SWITCH_CONTAINERS_DIR_NAME
        (by decide) (by decide)).symm.trans hmatch)
  · exact Bool.noConfusion
      ((env_not_subdir proj rest RTPC_DIR_NAME (by decide) (by decide)).symm.trans hmatch)
  · exact Bool.noConfusion
      ((env_not_subdir proj rest EFFECTS_DIR_NAME (by decide) (by decide)).symm.trans hmatch)

/-- Witness for the amended C2 on the concrete project. -/
theorem c2_witness :
    ((⟨"sound_definition.bfbs".data, []⟩ : FlatbuffersConversionData)
        ∈ get_conversion_data ⟨[("zz/environments/a.json".data, 3)], []⟩ "zz".data
          ["zs".data])
    ∧ ("zz".data ++ "/".data ++ "environments".data ++ "/".data ++ "a.json".data)
        ∉ FlatbuffersConversionData.input_files ⟨"sound_definition.bfbs".data, []⟩ :=
  ⟨by decide,
    c2_enumerated_categories.2 ⟨[("zz/environments/a.json".data, 3)], []⟩ "zz".data
      "a.json".data ["zs".data] ⟨"sound_definition.bfbs".data, []⟩ (by decide)⟩

/-! ## Small filesystem-step lemmas for the idempotence proof -/

theorem mtime_setFile (g : FS) (p : Str) (t : Nat) (q : Str) :
    (g.setFile p t).mtime q = if p = q then some t else g.mtime q := rfl

theorem mtime_setFile_ne {p q : Str} (g : FS) (t : Nat) (h : ¬ p = q) :
    (g.setFile p t).mtime q = g.mtime q := by
  rw [mtime_setFile, if_neg h]

theorem isfile_setFile_ne {p q : Str} (g : FS) (t : Nat) (h : ¬ p = q) :
    (g.setFile p t).isfile q = g.isfile q := by
  rw [FS.isfile, mtime_setFile_ne g t h, FS.isfile]

theorem mtime_some_isfile {g : FS} {p : Str} {m : Nat} (h : g.mtime p = some m) :
    g.isfile p = true := by
  rw [FS.isfile, h]
  rfl

theorem maxMtime_aux (l : List (Str × Nat)) : ∀ a : Nat, a ≤ l.foldl (fun acc e => max acc e.2) a := by
  induction l with
  | nil => intro a; exact Nat.le_refl a
  | cons e es ih =>
    intro a
    exact Nat.le_trans (Nat.le_max_left a e.2) (ih (max a e.2))

theorem maxMtime_ge {g : FS} {q : Str} {m : Nat} (h : g.mtime q = some m) : m ≤ maxMtime g := by
  rw [FS.mtime] at h
  rw [maxMtime]
  revert h
  generalize hst : (0 : Nat) = a
  clear hst
  induction g.files generalizing a with
  | nil => intro h; exact absurd h (by simp [lookupM])
  | cons e es ih =>
    intro h
    rw [lookupM] at h
    by_cases he : e.1 = q
    · rw [if_pos he] at h
      injection h with h2
      rw [List.foldl_cons, ← h2]
      exact Nat.le_trans (Nat.le_max_right a e.2) (maxMtime_aux es (max a e.2))
    · rw [if_neg he] at h
      rw [List.foldl_cons]
      exact ih (max a e.2) h

/-! ## `needs_rebuild` helper characterizations -/

theorem nr_some {g : FS} {s : Str} {ms : Nat} (hms : g.mtime s = some ms) (t : Str) :
    ∃ b, needs_rebuild g s t = some b := by
  unfold needs_rebuild
  cases hft : g.isfile t with
  | false => exact ⟨true, by simp⟩
  | true =>
    rcases Option.isSome_iff_exists.mp (show (g.mtime t).isSome = true from hft) with ⟨mt, hmt⟩
    exact ⟨decide (mt < ms), by simp [hms, hmt]⟩

theorem nr_false {g : FS} {s t : Str} {ms mt : Nat} (hs : g.mtime s = some ms)
    (ht : g.mtime t = some mt) (hle : ms ≤ mt) : needs_rebuild g s t = some false := by
  unfold needs_rebuild
  rw [mtime_some_isfile ht]
  rw [hs, ht]
  simp [Nat.not_lt.mpr hle]

theorem nr_false_elim {g : FS} {s t : Str} (h : needs_rebuild g s t = some false) :
    ∃ ms mt, g.mtime s = some ms ∧ g.mtime t = some mt ∧ ms ≤ mt := by
  unfold needs_rebuild at h
  cases hft : g.isfile t with
  | false => rw [hft] at h; simp at h
  | true =>
    rw [hft] at h
    simp only [if_true] at h
    cases hms : g.mtime s with
    | none => rw [hms] at h; cases g.mtime t <;> simp at h
    | some ms =>
      cases hmt : g.mtime t with
      | none => rw [hms, hmt] at h; simp at h
      | some mt =>
        rw [hms, hmt] at h
        simp only [Option.some.injEq, decide_eq_false_iff_not, Nat.not_lt] at h
        exact ⟨ms, mt, rfl, rfl, h⟩

/-! ## Stability of the conversion data under target writes -/

theorem globMatches_false_of_not_json {proj f : Str} {pat : SrcPattern}
    (hpat : match pat with | .star suf => ".json".data <:+ suf | .subdir _ => True)
    (h : ¬ (".json".data <:+ f)) : globMatches proj pat f = false := by
  cases hm : globMatches proj pat f with
  | false => rfl
  | true => exact absurd (globMatches_ends_json hpat hm) h

theorem registry_pats_json :
    ∀ r ∈ conversionRegistry,
      match r.2 with | .star suf => ".json".data <:+ suf | .subdir _ => True := by
  intro r hr
  simp only [conversionRegistry, List.mem_cons, List.not_mem_nil, or_false] at hr
  rcases hr with rfl | rfl | rfl | rfl | rfl | rfl | rfl | rfl | rfl | rfl | rfl | rfl <;> decide

theorem registry_names_bfbs :
    ∀ nm ∈ conversionRegistry.map Prod.fst,
      (".bfbs".data <:+ nm) ∧ ¬ nm.head? = some '/' ∧ nm ≠ [] := by
  decide

theorem pjoin_suffix {a b : Str} (hh : ¬ b.head? = some '/') : b <:+ pjoin a b := by
  unfold pjoin
  rw [if_neg hh]
  by_cases ha : a = []
  · rw [if_pos ha]
  · rw [if_neg ha]
    by_cases hl : a.getLast? = some '/'
    · rw [if_pos hl]
      exact List.suffix_append a b
    · rw [if_neg hl]
      exact List.suffix_append (a ++ "/".data) b

theorem globFiles_setFile {g : FS} {p : Str} {t : Nat} {proj : Str} {pat : SrcPattern}
    (h : globMatches proj pat p = false) :
    globFiles (g.setFile p t) proj pat = globFiles g proj pat := by
  unfold globFiles FS.setFile
  simp [h]

theorem find_in_paths_setFile {g : FS} {p sp nm : Str} {t : Nat} (h : ¬ p = pjoin sp nm) :
    find_in_paths (g.setFile p t) nm [sp] = find_in_paths g nm [sp] := by
  unfold find_in_paths
  rw [isfile_setFile_ne g t h]
  rfl

theorem data_setFile {g : FS} {p : Str} {m : Nat} {proj sp : Str}
    (hglob : ∀ r ∈ conversionRegistry, globMatches proj r.2 p = false)
    (hcand : ∀ nm ∈ conversionRegistry.map Prod.fst, ¬ p = pjoin sp nm) :
    get_conversion_data (g.setFile p m) proj [sp] = get_conversion_data g proj [sp] := by
  unfold get_conversion_data
  apply List.map_congr_left
  intro r hr
  rw [find_in_paths_setFile (hcand r.1 (List.mem_map_of_mem Prod.fst hr)),
    globFiles_setFile (hglob r hr)]

theorem data_files_congr {g g2 : FS} (h : g2.files = g.files) (proj sp : Str) :
    get_conversion_data g2 proj [sp] = get_conversion_data g proj [sp] := by
  unfold get_conversion_data
  apply List.map_congr_left
  intro r _
  unfold find_in_paths globFiles FS.isfile FS.mtime
  rw [h]
  rfl

theorem unitsOf_congr {fs fs2 : FS} {proj sp : Str}
    (h : get_conversion_data fs2 proj [sp] = get_conversion_data fs proj [sp]) :
    unitsOf fs2 proj sp = unitsOf fs proj sp := by
  unfold unitsOf
  rw [h]

/-! ## The flattened build fold -/

theorem foldl_flatten_units (C : Compiler) (opts : CommandOptions)
    (data : List FlatbuffersConversionData) (st : BuildSt) :
    data.foldl (fun s el => el.input_files.foldl (processUnit C opts el.schema) s) st
      = ((data.map (fun e => e.input_files.map (fun j => (e.schema, j)))).flatten).foldl
          (fun s u => processUnit C opts u.1 s u.2) st := by
  induction data generalizing st with
  | nil => rfl
  | cons d ds ih =>
    rw [List.foldl_cons, List.map_cons, List.flatten_cons, List.foldl_append, ih]
    congr 1
    rw [List.foldl_map]

theorem generate_eq_foldl (C : Compiler) (opts : CommandOptions) (fs : FS) :
    generate_flatbuffers_binaries C opts fs
      = (unitsOf fs opts.project_path opts.schema_path).foldl
          (fun s u => processUnit C opts u.1 s u.2) ⟨fs, [], none⟩ := by
  unfold generate_flatbuffers_binaries unitsOf
  exact foldl_flatten_units C opts _ _

/-! ## Unit facts and target separation -/

theorem units_facts {fs : FS} {proj sp : Str}
    (hschema : ∀ nm ∈ conversionRegistry.map Prod.fst, fs.isfile (pjoin sp nm) = true) :
    ∀ u ∈ unitsOf fs proj sp, GoodUnit fs u := by
  intro u hu
  unfold unitsOf at hu
  rcases List.mem_flatten.mp hu with ⟨l, hl, hul⟩
  rcases List.mem_map.mp hl with ⟨e, he, rfl⟩
  rcases List.mem_map.mp hul with ⟨j, hj, rfl⟩
  unfold get_conversion_data at he
  rcases List.mem_map.mp he with ⟨r, hr, rfl⟩
  have hglob := mem_globFiles hj
  have hjson : ".json".data <:+ j := globMatches_ends_json (registry_pats_json r hr) hglob.1
  have hnm : r.1 ∈ conversionRegistry.map Prod.fst := List.mem_map_of_mem Prod.fst hr
  have hsp : fs.isfile (pjoin sp r.1) = true := hschema r.1 hnm
  have hfind : find_in_paths fs r.1 [sp] = pjoin sp r.1 := by
    unfold find_in_paths
    simp [hsp]
  obtain ⟨hbfbs, hhead, _⟩ := registry_names_bfbs r.1 hnm
  refine ⟨hjson, hglob.2, ?_, ?_⟩
  · show fs.isfile (find_in_paths fs r.1 [sp]) = true
    rw [hfind]
    exact hsp
  · show ".bfbs".data <:+ find_in_paths fs r.1 [sp]
    rw [hfind]
    exact hbfbs.trans (pjoin_suffix hhead)

theorem not_target_of_json {opts : CommandOptions} {fs0 : FS} {q : Str}
    (hproj : ProjOk opts.project_path)
    (hU : ∀ u ∈ unitsOf fs0 opts.project_path opts.schema_path, GoodUnit fs0 u)
    (hq : ".json".data <:+ q) : ¬ IsTarget opts fs0 q := by
  rintro ⟨u, hu, rfl⟩
  exact target_not_json hproj (hU u hu).1 hq

theorem not_target_of_bfbs {opts : CommandOptions} {fs0 : FS} {q : Str}
    (hproj : ProjOk opts.project_path)
    (hU : ∀ u ∈ unitsOf fs0 opts.project_path opts.schema_path, GoodUnit fs0 u)
    (hq : ".bfbs".data <:+ q) : ¬ IsTarget opts fs0 q := by
  rintro ⟨u, hu, rfl⟩
  exact target_not_bfbs hproj (hU u hu).1 hq

theorem run_subprocess_ok {C : Compiler} {st : BuildSt} {argv : List Str} {g2 : FS}
    (h : C.run argv st.fs = .ran 0 g2) :
    run_subprocess C st argv = ⟨g2, st.calls ++ [argv], none⟩ := by
  unfold run_subprocess
  rw [h]
  simp

theorem mtime_fs1 (opts : CommandOptions) (g : FS) (j q : Str) :
    (fs1Of opts g j).mtime q = g.mtime q := by
  unfold FS.mtime
  rw [fs1Of_files]

/-! ## One build step preserves the invariant and brings its unit up to date -/

theorem processUnit_step (C : Compiler) (opts : CommandOptions) (fs0 : FS)
    (hproj : ProjOk opts.project_path) (hrun : Hrun C opts)
    (hU : ∀ u ∈ unitsOf fs0 opts.project_path opts.schema_path, GoodUnit fs0 u)
    (st : BuildSt) (v : Str × Str) (hgood : GoodUnit fs0 v)
    (hvt : IsTarget opts fs0 (targetOf opts v.2)) (hinv : BuildInv opts fs0 st) :
    BuildInv opts fs0 (processUnit C opts v.1 st v.2)
    ∧ UpToDate opts fs0 (processUnit C opts v.1 st v.2).fs v
    ∧ (∀ u, UpToDate opts fs0 st.fs u →
        UpToDate opts fs0 (processUnit C opts v.1 st v.2).fs u) := by
  obtain ⟨he, hnt, hdata⟩ := hinv
  obtain ⟨hjv, hfv, hfs, hbv⟩ := hgood
  obtain ⟨mj0, hmj0⟩ := Option.isSome_iff_exists.mp (show (fs0.mtime v.2).isSome = true from hfv)
  obtain ⟨ms0, hms0⟩ := Option.isSome_iff_exists.mp (show (fs0.mtime v.1).isSome = true from hfs)
  have hntj : ¬ IsTarget opts fs0 v.2 := not_target_of_json hproj hU hjv
  have hnts : ¬ IsTarget opts fs0 v.1 := not_target_of_bfbs hproj hU hbv
  have hstj : st.fs.mtime v.2 = some mj0 := (hnt v.2 hntj).trans hmj0
  have hsts : st.fs.mtime v.1 = some ms0 := (hnt v.1 hnts).trans hms0
  obtain ⟨b1, hb1⟩ := nr_some hstj (targetOf opts v.2)
  obtain ⟨b2, hb2⟩ := nr_some hsts (targetOf opts v.2)
  rw [processUnit_no_error C opts v.1 st v.2 b1 b2 he hb1 hb2]
  cases hbb : b1 || b2 with
  | false =>
    simp only [Bool.false_eq_true, if_false]
    rcases Bool.or_eq_false_iff.mp hbb with ⟨hb1f, hb2f⟩
    subst hb1f
    subst hb2f
    obtain ⟨ms, mt, hsm, htm, hle⟩ := nr_false_elim hb1
    obtain ⟨ms2, mt2, hsm2, htm2, hle2⟩ := nr_false_elim hb2
    have hms : ms = mj0 := by
      have h0 := hstj.symm.trans hsm
      injection h0 with h0
      exact h0.symm
    have hms2 : ms2 = ms0 := by
      have h0 := hsts.symm.trans hsm2
      injection h0 with h0
      exact h0.symm
    have hmt2 : mt2 = mt := by
      have h0 := htm.symm.trans htm2
      injection h0 with h0
      exact h0.symm
    refine ⟨⟨rfl, ?_, ?_⟩, ?_, ?_⟩
    · intro q hq
      show (fs1Of opts st.fs v.2).mtime q = fs0.mtime q
      rw [mtime_fs1]
      exact hnt q hq
    · show get_conversion_data (fs1Of opts st.fs v.2) opts.project_path [opts.schema_path] = _
      exact (data_files_congr (fs1Of_files opts st.fs v.2) _ _).trans hdata
    · refine ⟨mt, ?_, ?_, ?_⟩
      · show (fs1Of opts st.fs v.2).mtime (targetOf opts v.2) = some mt
        rw [mtime_fs1]
        exact htm
      · intro mj hmj
        have h0 := hmj0.symm.trans hmj
        injection h0 with h0
        rw [← h0, ← hms]
        exact hle
      · intro msch hmsch
        have h0 := hms0.symm.trans hmsch
        injection h0 with h0
        rw [← h0, ← hms2, ← hmt2]
        exact hle2
    · intro u hup
      obtain ⟨m0, hm0, hα, hβ⟩ := hup
      refine ⟨m0, ?_, hα, hβ⟩
      show (fs1Of opts st.fs v.2).mtime (targetOf opts u.2) = some m0
      rw [mtime_fs1]
      exact hm0
  | true =>
    simp only [if_true]
    obtain ⟨t, hct, hfresh⟩ := hrun v.2 v.1 (dirname (targetOf opts v.2)) (fs1Of opts st.fs v.2)
    have hrun2 : run_subprocess C ⟨fs1Of opts st.fs v.2, st.calls, none⟩ (cmdOf opts v.1 v.2)
        = ⟨(fs1Of opts st.fs v.2).setFile (targetOf opts v.2) t,
           st.calls ++ [cmdOf opts v.1 v.2], none⟩ :=
      run_subprocess_ok hct
    rw [hrun2]
    have hfreshj : mj0 ≤ t := by
      refine hfresh v.2 mj0 ?_
      rw [mtime_fs1]
      exact hstj
    have hfreshs : ms0 ≤ t := by
      refine hfresh v.1 ms0 ?_
      rw [mtime_fs1]
      exact hsts
    refine ⟨⟨rfl, ?_, ?_⟩, ?_, ?_⟩
    · intro q hq
      have hne : ¬ targetOf opts v.2 = q := fun heq => hq (heq ▸ hvt)
      show ((fs1Of opts st.fs v.2).setFile (targetOf opts v.2) t).mtime q = fs0.mtime q
      rw [mtime_setFile_ne _ t hne, mtime_fs1]
      exact hnt q hq
    · show get_conversion_data ((fs1Of opts st.fs v.2).setFile (targetOf opts v.2) t)
          opts.project_path [opts.schema_path] = _
      have hglob : ∀ r ∈ conversionRegistry,
          globMatches opts.project_path r.2 (targetOf opts v.2) = false := fun r hr =>
        globMatches_false_of_not_json (registry_pats_json r hr) (target_not_json hproj hjv)
      have hcand : ∀ nm ∈ conversionRegistry.map Prod.fst,
          ¬ targetOf opts v.2 = pjoin opts.schema_path nm := by
        intro nm hnm heq
        obtain ⟨hbfbs, hhead, _⟩ := registry_names_bfbs nm hnm
        exact target_not_bfbs hproj hjv (heq ▸ hbfbs.trans (pjoin_suffix hhead))
      exact (data_setFile hglob hcand).trans
        ((data_files_congr (fs1Of_files opts st.fs v.2) _ _).trans hdata)
    · refine ⟨t, ?_, ?_, ?_⟩
      · show ((fs1Of opts st.fs v.2).setFile (targetOf opts v.2) t).mtime (targetOf opts v.2)
            = some t
        rw [mtime_setFile, if_pos rfl]
      · intro mj hmj
        have h0 := hmj0.symm.trans hmj
        injection h0 with h0
        rw [← h0]
        exact hfreshj
      · intro msch hmsch
        have h0 := hms0.symm.trans hmsch
        injection h0 with h0
        rw [← h0]
        exact hfreshs
    · intro u hup
      obtain ⟨m0, hm0, hα, hβ⟩ := hup
      have hm1 : (fs1Of opts st.fs v.2).mtime (targetOf opts u.2) = some m0 := by
        rw [mtime_fs1]
        exact hm0
      by_cases hne : targetOf opts v.2 = targetOf opts u.2
      · refine ⟨t, ?_, ?_, ?_⟩
        · show ((fs1Of opts st.fs v.2).setFile (targetOf opts v.2) t).mtime (targetOf opts u.2)
              = some t
          rw [mtime_setFile, if_pos hne]
        · intro mj hmj
          exact Nat.le_trans (hα mj hmj) (hfresh (targetOf opts u.2) m0 hm1)
        · intro msch hmsch
          exact Nat.le_trans (hβ msch hmsch) (hfresh (targetOf opts u.2) m0 hm1)
      · refine ⟨m0, ?_, hα, hβ⟩
        show ((fs1Of opts st.fs v.2).setFile (targetOf opts v.2) t).mtime (targetOf opts u.2)
            = some m0
        rw [mtime_setFile_ne _ t hne]
        exact hm1

/-! ## The two build runs -/

theorem buildFold_run1 (C : Compiler) (opts : CommandOptions) (fs0 : FS)
    (hproj : ProjOk opts.project_path) (hrun : Hrun C opts)
    (hU : ∀ u ∈ unitsOf fs0 opts.project_path opts.schema_path, GoodUnit fs0 u) :
    ∀ (V : List (Str × Str)) (st : BuildSt),
      (∀ u ∈ V, GoodUnit fs0 u) →
      (∀ u ∈ V, IsTarget opts fs0 (targetOf opts u.2)) →
      BuildInv opts fs0 st →
      BuildInv opts fs0 (V.foldl (fun s u => processUnit C opts u.1 s u.2) st)
      ∧ (∀ u ∈ V,
          UpToDate opts fs0 (V.foldl (fun s u => processUnit C opts u.1 s u.2) st).fs u)
      ∧ (∀ u, UpToDate opts fs0 st.fs u →
          UpToDate opts fs0 (V.foldl (fun s u => processUnit C opts u.1 s u.2) st).fs u) := by
  intro V
  induction V with
  | nil =>
    intro st _ _ hinv
    exact ⟨hinv, by simp, fun u h => h⟩
  | cons v vs ih =>
    intro st hgood htv hinv
    rw [List.foldl_cons]
    obtain ⟨hinv1, hup1, hpres1⟩ := processUnit_step C opts fs0 hproj hrun hU st v
      (hgood v (List.mem_cons_self v vs)) (htv v (List.mem_cons_self v vs)) hinv
    obtain ⟨hinv2, hup2, hpres2⟩ := ih (processUnit C opts v.1 st v.2)
      (fun u hu => hgood u (List.mem_cons_of_mem v hu))
      (fun u hu => htv u (List.mem_cons_of_mem v hu)) hinv1
    refine ⟨hinv2, ?_, fun u h => hpres2 u (hpres1 u h)⟩
    intro u hu
    rcases List.mem_cons.mp hu with rfl | hu2
    · exact hpres2 u hup1
    · exact hup2 u hu2

theorem buildFold_run2 (C : Compiler) (opts : CommandOptions) :
    ∀ (V : List (Str × Str)) (st : BuildSt), st.err = none →
      (∀ u ∈ V, needs_rebuild st.fs u.2 (targetOf opts u.2) = some false
        ∧ needs_rebuild st.fs u.1 (targetOf opts u.2) = some false) →
      (V.foldl (fun s u => processUnit C opts u.1 s u.2) st).calls = st.calls := by
  intro V
  induction V with
  | nil => intro st _ _; rfl
  | cons v vs ih =>
    intro st he hnr
    rw [List.foldl_cons]
    have hv := hnr v (List.mem_cons_self v vs)
    rw [processUnit_no_error C opts v.1 st v.2 false false he hv.1 hv.2]
    simp only [Bool.or_self, Bool.false_eq_true, if_false]
    refine ih ⟨fs1Of opts st.fs v.2, st.calls, none⟩ rfl ?_
    intro u hu
    have hu2 := hnr u (List.mem_cons_of_mem v hu)
    constructor
    · show needs_rebuild (fs1Of opts st.fs v.2) u.2 (targetOf opts u.2) = some false
      rw [needs_rebuild_files_eq (fs1Of_files opts st.fs v.2)]
      exact hu2.1
    · show needs_rebuild (fs1Of opts st.fs v.2) u.1 (targetOf opts u.2) = some false
      rw [needs_rebuild_files_eq (fs1Of_files opts st.fs v.2)]
      exact hu2.2

/-! ## Claim C6 -/

/-- C6: under the external compiler contract — every issued invocation
succeeds and writes exactly the unit's target with a modification time at
least as new as everything on disk — and with the schemas resolvable and a
non-degenerate project root, running `build` twice in succession with no
filesystem changes between the runs performs zero compiler invocations on
the second run. -/
theorem c6_second_build_is_noop (C : Compiler) (opts : CommandOptions) (fs0 : FS)
    (hproj : ProjOk opts.project_path)
    (hschema : ∀ nm ∈ conversionRegistry.map Prod.fst,
        fs0.isfile (pjoin opts.schema_path nm) = true)
    (hrun : Hrun C opts) :
    (generate_flatbuffers_binaries C opts
        (generate_flatbuffers_binaries C opts fs0).fs).calls = [] := by
  have hU := @units_facts fs0 opts.project_path opts.schema_path hschema
  have hinv0 : BuildInv opts fs0 ⟨fs0, [], none⟩ := ⟨rfl, fun q _ => rfl, rfl⟩
  obtain ⟨hinvf, hupf, _⟩ := buildFold_run1 C opts fs0 hproj hrun hU
    (unitsOf fs0 opts.project_path opts.schema_path) ⟨fs0, [], none⟩
    (fun u hu => hU u hu) (fun u hu => ⟨u, hu, rfl⟩) hinv0
  rw [generate_eq_foldl C opts fs0]
  rw [generate_eq_foldl C opts
    ((unitsOf fs0 opts.project_path opts.schema_path).foldl
      (fun s u => processUnit C opts u.1 s u.2) ⟨fs0, [], none⟩).fs]
  rw [unitsOf_congr hinvf.2.2]
  refine buildFold_run2 C opts _ _ rfl ?_
  intro u hu
  obtain ⟨m, hm, hmj, hms⟩ := hupf u hu
  have hg := hU u hu
  obtain ⟨mj, hmj0⟩ :=
    Option.isSome_iff_exists.mp (show (fs0.mtime u.2).isSome = true from hg.2.1)
  obtain ⟨msch, hms0⟩ :=
    Option.isSome_iff_exists.mp (show (fs0.mtime u.1).isSome = true from hg.2.2.1)
  have h1 : ((unitsOf fs0 opts.project_path opts.schema_path).foldl
      (fun s u => processUnit C opts u.1 s u.2) ⟨fs0, [], none⟩).fs.mtime u.2 = some mj :=
    (hinvf.2.1 u.2 (not_target_of_json hproj hU hg.1)).trans hmj0
  have h2 : ((unitsOf fs0 opts.project_path opts.schema_path).foldl
      (fun s u => processUnit C opts u.1 s u.2) ⟨fs0, [], none⟩).fs.mtime u.1 = some msch :=
    (hinvf.2.1 u.1 (not_target_of_bfbs hproj hU hg.2.2.2)).trans hms0
  exact ⟨nr_false h1 hm (hmj mj hmj0), nr_false h2 hm (hms msch hms0)⟩

/-- Witness for C6: a concrete project with one sound file and all schemas,
built twice by a contract-obeying compiler. -/
theorem c6_witness :
    ProjOk "zz".data
    ∧ (∀ nm ∈ conversionRegistry.map Prod.fst,
        c6fs.isfile (pjoin "zs".data nm) = true)
    ∧ Hrun (demoCompiler "zz".data "out".data) wopts
    ∧ (generate_flatbuffers_binaries (demoCompiler "zz".data "out".data) wopts
        (generate_flatbuffers_binaries (demoCompiler "zz".data "out".data) wopts
          c6fs).fs).calls = [] := by
  have hrun : Hrun (demoCompiler "zz".data "out".data) wopts := by
    intro json sch odir g
    exact ⟨maxMtime g + 1, rfl, fun q m hm => Nat.le_succ_of_le (maxMtime_ge hm)⟩
  exact ⟨by decide, by decide, hrun,
    c6_second_build_is_noop (demoCompiler "zz".data "out".data) wopts c6fs
      (by decide) (by decide) hrun⟩

end AmplitudeBuild
